import Mathlib

/-!
Verification of the genesis tree/scanner core against its specification.

The scanner and literal parsers, the link-based tree topology, the Newick
broker rank bookkeeping and the mass-tree helper functions are embedded
shallowly below.  Functions whose bodies are part of the repository are
translated from the source; collaborator functions whose bodies are not in
the source tree are modelled from the specification and carry a doc comment
saying so.
-/

/- ====================================================================
   Scanner and literal parsers
   ==================================================================== -/

/-- Modelled from the spec: the digit test used by the literal parsers
(the `is_digit` helper of the scanner layer is not in the source tree). -/
def isDigitC (c : Char) : Bool := 48 ≤ c.toNat && c.toNat ≤ 57

/-- Numeric value of a digit character. -/
def charVal (c : Char) : ℕ := c.toNat - 48

/-- Column accumulator: walks over the consumed characters, incrementing the
column and resetting it to 1 after a newline. -/
def columnGo (c : ℕ) : List Char → ℕ
  | [] => c
  | ch :: rest => if ch = '\n' then columnGo 1 rest else columnGo (c + 1) rest

/-- Modelled from the spec: the column accounting of `InputStream` (not in the
source tree).  The column is 0 on empty input; otherwise it starts at 1,
increments per consumed character and resets to 1 after a newline.
`columnOf s k` is the column after consuming the first `k` characters. -/
def columnOf (s : List Char) (k : ℕ) : ℕ :=
  if s = [] then 0 else columnGo 1 (s.take k)

/-- Error kinds raised by the literal parsers: `std::overflow_error`,
`std::underflow_error` and `std::runtime_error` (syntax). -/
inductive PErr where
  | overflowErr | underflowErr | malformedErr
deriving DecidableEq, Repr

instance {ε α : Type} [DecidableEq ε] [DecidableEq α] : DecidableEq (Except ε α) :=
  fun x y =>
    match x, y with
    | .ok a, .ok b =>
      if h : a = b then .isTrue (by rw [h]) else .isFalse (by intro hc; cases hc; exact h rfl)
    | .error a, .error b =>
      if h : a = b then .isTrue (by rw [h]) else .isFalse (by intro hc; cases hc; exact h rfl)
    | .ok _, .error _ => .isFalse (by intro hc; cases hc)
    | .error _, .ok _ => .isFalse (by intro hc; cases hc)

/-- Modelled from the spec: the digit accumulation loop shared by the integer
parsers (not in the source tree).  Consumes leading digits, accumulating the
value and the consumed-character count, and raises `err` as soon as the
accumulated magnitude would exceed `mx`. -/
def parseDigits (mx : ℕ) (err : PErr) : List Char → ℕ → ℕ → Except PErr (ℕ × ℕ)
  | [], x, cnt => .ok (x, cnt)
  | c :: cs, x, cnt =>
    if isDigitC c then
      if mx < 10 * x + charVal c then .error err
      else parseDigits mx err cs (10 * x + charVal c) (cnt + 1)
    else .ok (x, cnt)

/-- Modelled from the spec: `parse_unsigned_integer<unsigned int>` (not in the
source tree; its observable behaviour is fixed by `TEST(Parser, UnsignedInteger)`).
Returns the value and the number of characters consumed. -/
def parse_unsigned_integer (s : List Char) : Except PErr (ℕ × ℕ) :=
  parseDigits 4294967295 .overflowErr s 0 0

/-- Modelled from the spec: `parse_signed_integer<int>` (not in the source tree;
behaviour fixed by `TEST(Parser, SignedInteger)`).  An optional sign is
consumed; a negative magnitude beyond the `int` range raises the distinct
underflow error. -/
def parse_signed_integer (s : List Char) : Except PErr (Int × ℕ) :=
  match s with
  | [] => (parseDigits 2147483647 .overflowErr [] 0 0).map (fun p => ((p.1 : Int), p.2))
  | c :: rest =>
    if c = '+' then
      (parseDigits 2147483647 .overflowErr rest 0 1).map (fun p => ((p.1 : Int), p.2))
    else if c = '-' then
      (parseDigits 2147483648 .underflowErr rest 0 1).map (fun p => (-(p.1 : Int), p.2))
    else
      (parseDigits 2147483647 .overflowErr (c :: rest) 0 0).map
        (fun p => ((p.1 : Int), p.2))

/-- Reads a maximal run of digits, returning value, count and the rest. -/
def readNatAux : List Char → ℕ → ℕ → ℕ × ℕ × List Char
  | [], x, cnt => (x, cnt, [])
  | c :: cs, x, cnt =>
    if isDigitC c then readNatAux cs (10 * x + charVal c) (cnt + 1)
    else (x, cnt, c :: cs)

/-- Exact value of a parsed float, kept as an unreduced fraction
(numerator, denominator) so that it is computable by structural reduction.
The denominator is always a power of ten. -/
abbrev FVal := Int × ℕ

/-- The rational number denoted by a parsed float value. -/
def ratOfF (v : FVal) : ℚ := (v.1 : ℚ) / (v.2 : ℚ)

/-- Modelled from the spec: the exponent phase of `parse_float` (not in the
source tree; behaviour fixed by `TEST(Parser, Float)`).  `s` is the input
after the `e`/`E` marker and `cnt` the consumed count including the marker.
An optional exponent sign is consumed; if no digit follows, the value is
returned unchanged (marker and sign consumed but ignored).  An exponent
magnitude beyond the signed integer range raises overflow for a positive
exponent and underflow for a negative one. -/
def expPhase (s : List Char) (x : FVal) (cnt : ℕ) : Except PErr (FVal × ℕ) :=
  let sp : Bool × List Char × ℕ :=
    match s with
    | [] => (false, [], cnt)
    | c :: rest =>
      if c = '+' then (false, rest, cnt + 1)
      else if c = '-' then (true, rest, cnt + 1)
      else (false, c :: rest, cnt)
  match sp.2.1 with
  | c :: cs =>
    if isDigitC c then
      match parseDigits 2147483647 (if sp.1 then .underflowErr else .overflowErr)
          (c :: cs) 0 sp.2.2 with
      | .error e => .error e
      | .ok (ev, c2) =>
        .ok ((if sp.1 then (x.1, x.2 * 10 ^ ev) else (x.1 * 10 ^ ev, x.2)), c2)
    else .ok (x, sp.2.2)
  | [] => .ok (x, sp.2.2)

/-- Modelled from the spec: `parse_float<double>` (not in the source tree;
behaviour fixed by `TEST(Parser, Float)`).  Optional sign, integer part,
optional decimal separator `.` or `,` with fractional digits, optional
exponent via `expPhase`.  Returns the value (as an exact fraction) and the
number of characters consumed. -/
def parse_float (s : List Char) : Except PErr (FVal × ℕ) :=
  let sp : Bool × List Char × ℕ :=
    match s with
    | [] => (false, [], 0)
    | c :: rest =>
      if c = '+' then (false, rest, 1)
      else if c = '-' then (true, rest, 1)
      else (false, c :: rest, 0)
  let m := readNatAux sp.2.1 0 0
  let c1 := sp.2.2 + m.2.1
  let fr : FVal × List Char × ℕ :=
    match m.2.2 with
    | c :: cs =>
      if c = '.' || c = ',' then
        let f := readNatAux cs 0 0
        (((m.1 * 10 ^ f.2.1 + f.1 : ℕ), 10 ^ f.2.1), f.2.2, c1 + 1 + f.2.1)
      else (((m.1 : ℕ), 1), c :: cs, c1)
    | [] => (((m.1 : ℕ), 1), [], c1)
  let sgn : FVal → FVal := fun v => if sp.1 then (-v.1, v.2) else v
  match fr.2.1 with
  | c :: cs =>
    if c = 'e' || c = 'E' then
      (expPhase cs fr.1 (fr.2.2 + 1)).map (fun p => (sgn p.1, p.2))
    else .ok (sgn fr.1, fr.2.2)
  | [] => .ok (sgn fr.1, fr.2.2)

/-- Modelled from the spec: the scan loop of `parse_quoted_string` in
doubled-delimiter mode (not in the source tree; behaviour fixed by
`TEST(Parser, String)`).  `q` is the opening delimiter, `cnt` the consumed
count so far including the opening delimiter.  A doubled delimiter yields one
literal delimiter character; end of input before the closing delimiter is a
syntax error. -/
def twinGo (q : Char) : List Char → ℕ → List Char → Except PErr (List Char × ℕ)
  | [], _, _ => .error .malformedErr
  | [c], cnt, acc =>
    if c = q then .ok (acc, cnt + 1) else .error .malformedErr
  | c :: c2 :: cs, cnt, acc =>
    if c = q then
      if c2 = q then twinGo q cs (cnt + 2) (acc ++ [q])
      else .ok (acc, cnt + 1)
    else twinGo q (c2 :: cs) (cnt + 1) (acc ++ [c])

/-- Modelled from the spec: `parse_quoted_string` with `use_twin_quotes` set
(not in the source tree; behaviour fixed by `TEST(Parser, String)`).  Empty
input yields the empty string; otherwise the first character is the
delimiter.  Returns the parsed characters (with the delimiters kept when
`include_qmarks` is set) and the consumed-character count. -/
def parse_quoted_string (include_qmarks : Bool) (s : List Char) :
    Except PErr (List Char × ℕ) :=
  match s with
  | [] => .ok ([], 0)
  | q :: rest =>
    match twinGo q rest 1 [] with
    | .error e => .error e
    | .ok (v, cnt) => .ok ((if include_qmarks then q :: (v ++ [q]) else v), cnt)

/-- Whether a doubled-delimiter quoted region, already opened with delimiter
`q`, is properly closed before end of input. -/
def twinClosed (q : Char) : List Char → Bool
  | [] => false
  | [c] => c = q
  | c :: c2 :: cs =>
    if c = q then (if c2 = q then twinClosed q cs else true)
    else twinClosed q (c2 :: cs)

-- Sanity checks against TEST(Parser, UnsignedInteger) / SignedInteger / Float / String.
example : parse_unsigned_integer "123 45".data = .ok (123, 3) := by decide
example : parse_unsigned_integer "+0".data = .ok (0, 0) := by decide
example : parse_signed_integer "+0".data = .ok (0, 2) := by decide
example : parse_signed_integer "-123 45".data = .ok (-123, 4) := by decide
example : parse_signed_integer "-".data = .ok (0, 1) := by decide
example : parse_float "123.456e-x2".data = .ok ((123456, 1000), 9) := by decide
example : parse_float "123.45e".data = .ok ((12345, 100), 7) := by decide
example : parse_float "-123,456e-2".data = .ok ((-123456, 100000), 11) := by decide
example : parse_float "123.456e2".data = .ok ((12345600, 1000), 9) := by decide
example : ratOfF (12345600, 1000) = 12345.6 := by norm_num [ratOfF]
example : parse_float "1.0e123456789101121314151617181920".data = .error .overflowErr := by
  decide
example : parse_float "1.0e-123456789101121314151617181920".data = .error .underflowErr := by
  decide
example :
    parse_quoted_string false ['\'', '\'', '\'', '\''] = .ok (['\''], 4) := by decide
example :
    parse_quoted_string false ['\'', 'b', 'l', '\'', '\'', 'a', '\''] =
      .ok (['b', 'l', '\'', 'a'], 7) := by decide
example :
    parse_quoted_string true ['\'', 'x', 'y', '\'', '\'', 'z'] = .error .malformedErr := by
  decide
example : columnOf "123 45".data 3 = 4 := by decide
example : columnOf [] 0 = 0 := by decide

/- ====================================================================
   Characterization of the digit loop and the column accounting
   ==================================================================== -/

/-- Value denoted by a digit string appended to an accumulator `x`. -/
def natVal : List Char → ℕ → ℕ
  | [], x => x
  | c :: cs, x => natVal cs (10 * x + charVal c)

theorem natVal_le (cs : List Char) : ∀ x : ℕ, x ≤ natVal cs x := by
  induction cs with
  | nil => intro x; simp [natVal]
  | cons c cs ih =>
    intro x
    calc x ≤ 10 * x + charVal c := by omega
    _ ≤ natVal cs (10 * x + charVal c) := ih _

theorem natVal_pow (cs : List Char) : ∀ x : ℕ, x * 10 ^ cs.length ≤ natVal cs x := by
  induction cs with
  | nil => intro x; simp [natVal]
  | cons c cs ih =>
    intro x
    have h1 : x * 10 ^ (c :: cs).length = (10 * x) * 10 ^ cs.length := by
      simp [List.length_cons, pow_succ]; ring
    calc x * 10 ^ (c :: cs).length = (10 * x) * 10 ^ cs.length := h1
    _ ≤ (10 * x + charVal c) * 10 ^ cs.length := Nat.mul_le_mul_right _ (by omega)
    _ ≤ natVal cs (10 * x + charVal c) := ih _

theorem parseDigits_eq (mx : ℕ) (err : PErr) :
    ∀ (cs : List Char) (x cnt : ℕ), x ≤ mx →
    parseDigits mx err cs x cnt =
      (if natVal (cs.takeWhile isDigitC) x ≤ mx
       then .ok (natVal (cs.takeWhile isDigitC) x, cnt + (cs.takeWhile isDigitC).length)
       else .error err) := by
  intro cs
  induction cs with
  | nil => intro x cnt hx; simp [parseDigits, natVal, hx]
  | cons c cs ih =>
    intro x cnt hx
    by_cases hd : isDigitC c
    · by_cases hov : mx < 10 * x + charVal c
      · have hnle : ¬ natVal (cs.takeWhile isDigitC) (10 * x + charVal c) ≤ mx :=
          fun h => absurd (le_trans (natVal_le _ _) h) (by omega)
        simp [parseDigits, hd, hov, List.takeWhile_cons, natVal, hnle]
      · have hx' : 10 * x + charVal c ≤ mx := by omega
        have := ih (10 * x + charVal c) (cnt + 1) hx'
        simp [parseDigits, hd, hov, List.takeWhile_cons, natVal, this]
        by_cases hle : natVal (cs.takeWhile isDigitC) (10 * x + charVal c) ≤ mx <;>
          simp [hle] <;> omega
    · simp [parseDigits, hd, List.takeWhile_cons, natVal, hx]

theorem columnGo_no_newline :
    ∀ (l : List Char) (a : ℕ), (∀ c ∈ l, c ≠ '\n') → columnGo a l = a + l.length := by
  intro l
  induction l with
  | nil => intro a _; simp [columnGo]
  | cons c cs ih =>
    intro a h
    have hc : c ≠ '\n' := h c (by simp)
    have := ih (a + 1) (fun d hd => h d (by simp [hd]))
    simp [columnGo, hc, this]
    omega

theorem columnOf_no_newline (s : List Char) (k : ℕ) (hs : s ≠ [])
    (h : ∀ c ∈ s.take k, c ≠ '\n') : columnOf s k = 1 + (s.take k).length := by
  simp [columnOf, hs, columnGo_no_newline _ _ h]

theorem isDigitC_ne_newline {c : Char} (h : isDigitC c = true) : c ≠ '\n' := by
  intro hc; rw [hc] at h; exact absurd h (by decide)

/- ====================================================================
   NewickBrokerElement (src/lib/genesis/tree/formats/newick/element.hpp)
   ==================================================================== -/

/-- Embeds `NewickBrokerElement`: one flattened node record of the broker.
The private `rank_` field is `-1` until `NewickBroker::assign_ranks` has
run, as set by the constructor. -/
structure NewickBrokerElement where
  name : String
  values : List String
  tags : List String
  comments : List String
  depth : Int
  rank_ : Int
deriving DecidableEq, Repr

/-- The default constructor: depth and rank are initialized to -1. -/
def NewickBrokerElement.init : NewickBrokerElement :=
  { name := "", values := [], tags := [], comments := [], depth := -1, rank_ := -1 }

/-- Embeds `NewickBrokerElement::rank`: throws a `std::logic_error` when the
rank has not been assigned yet. -/
def NewickBrokerElement.rank (e : NewickBrokerElement) : Except String Int :=
  if e.rank_ < 0 then
    .error "NewickBroker::assign_ranks() was not called before."
  else .ok e.rank_

/-- Embeds `NewickBrokerElement::is_root`: total, never throws. -/
def NewickBrokerElement.is_root (e : NewickBrokerElement) : Bool :=
  e.depth == 0

/-- Embeds `NewickBrokerElement::is_leaf`: throws a `std::logic_error` when
the rank has not been assigned yet. -/
def NewickBrokerElement.is_leaf (e : NewickBrokerElement) : Except String Bool :=
  if e.rank_ < 0 then
    .error "NewickBroker::is_leaf() was not called before."
  else .ok (e.rank_ == 0)

/-- Embeds `NewickBrokerElement::is_inner`: throws a `std::logic_error` when
the rank has not been assigned yet. -/
def NewickBrokerElement.is_inner (e : NewickBrokerElement) : Except String Bool :=
  if e.rank_ < 0 then
    .error "NewickBroker::is_leaf() was not called before."
  else .ok (e.rank_ != 0)

/- ====================================================================
   Integer/string conversions used by the placement mixin
   ==================================================================== -/

/-- The decimal digit character for `d < 10`. -/
def digitChar (d : ℕ) : Char :=
  match d with
  | 0 => '0' | 1 => '1' | 2 => '2' | 3 => '3' | 4 => '4'
  | 5 => '5' | 6 => '6' | 7 => '7' | 8 => '8' | _ => '9'

/-- Decimal digits of a natural number, most significant first. -/
def natDigits (n : ℕ) : List Char :=
  if h : n < 10 then [digitChar n]
  else natDigits (n / 10) ++ [digitChar (n % 10)]
decreasing_by exact Nat.div_lt_self (by omega) (by omega)

/-- Models `std::to_string(int)`: minus sign for negative values, then the
decimal digits. -/
def to_string_int (n : Int) : List Char :=
  if n < 0 then '-' :: natDigits n.natAbs else natDigits n.natAbs

/-- Reads a digit run as a natural number; `none` when there is no digit. -/
def stoiNat (l : List Char) : Option ℕ :=
  if (l.takeWhile isDigitC).length = 0 then none
  else some (natVal (l.takeWhile isDigitC) 0)

/-- Models `std::stoi`: an optional sign followed by a digit run; `none`
(an `std::invalid_argument` throw) when no digit follows.  Trailing
non-digit characters are ignored, as in the C++ function. -/
def stoi (s : List Char) : Option Int :=
  match s with
  | [] => none
  | c :: rest =>
    if c = '+' then (stoiNat rest).map (fun v => Int.ofNat v)
    else if c = '-' then (stoiNat rest).map (fun v => -(Int.ofNat v))
    else (stoiNat (c :: rest)).map (fun v => Int.ofNat v)

theorem charVal_digitChar (d : ℕ) (h : d < 10) : charVal (digitChar d) = d := by
  interval_cases d <;> decide

theorem isDigitC_digitChar (d : ℕ) : isDigitC (digitChar d) = true := by
  rcases d with _ | _ | _ | _ | _ | _ | _ | _ | _ | d
  all_goals first
  | decide
  | (show isDigitC (Char.ofNat 57) = true; decide)

theorem natDigits_digits (n : ℕ) : ∀ c ∈ natDigits n, isDigitC c = true := by
  induction n using Nat.strong_induction_on with
  | _ n ih =>
    intro c hc
    rw [natDigits] at hc
    by_cases h : n < 10
    · simp [h] at hc
      subst hc; exact isDigitC_digitChar n
    · simp [h] at hc
      rcases hc with hc | hc
      · exact ih (n / 10) (Nat.div_lt_self (by omega) (by omega)) c hc
      · subst hc; exact isDigitC_digitChar (n % 10)

theorem natDigits_ne_nil (n : ℕ) : natDigits n ≠ [] := by
  rw [natDigits]
  by_cases h : n < 10 <;> simp [h]

theorem natVal_append (l₁ l₂ : List Char) :
    ∀ x, natVal (l₁ ++ l₂) x = natVal l₂ (natVal l₁ x) := by
  induction l₁ with
  | nil => intro x; simp [natVal]
  | cons c cs ih => intro x; simp [natVal, ih]

theorem natVal_natDigits (n : ℕ) : natVal (natDigits n) 0 = n := by
  induction n using Nat.strong_induction_on with
  | _ n ih =>
    rw [natDigits]
    by_cases h : n < 10
    · simp [h, natVal, charVal_digitChar n h]
    · simp [h, natVal_append]
      rw [ih (n / 10) (Nat.div_lt_self (by omega) (by omega))]
      simp [natVal, charVal_digitChar (n % 10) (by omega)]
      omega

theorem takeWhile_digits_natDigits (n : ℕ) :
    (natDigits n).takeWhile isDigitC = natDigits n :=
  List.takeWhile_eq_self_iff.mpr (natDigits_digits n)

theorem stoiNat_natDigits (n : ℕ) : stoiNat (natDigits n) = some n := by
  have hne : natDigits n ≠ [] := natDigits_ne_nil n
  rw [stoiNat, takeWhile_digits_natDigits]
  rw [if_neg (by simpa [List.length_eq_zero] using hne)]
  rw [natVal_natDigits]

theorem stoi_to_string_int (n : Int) : stoi (to_string_int n) = some n := by
  by_cases h : n < 0
  · rw [to_string_int, if_pos h]
    rw [stoi]
    rw [if_neg (by decide), if_pos rfl, stoiNat_natDigits]
    simp only [Option.map_some', Int.ofNat_eq_coe]
    congr 1
    omega
  · rw [to_string_int, if_neg h]
    match hm : natDigits n.natAbs with
    | [] => exact absurd hm (natDigits_ne_nil _)
    | c :: cs =>
      have hc : isDigitC c = true := by
        have := natDigits_digits n.natAbs c; rw [hm] at this; exact this (by simp)
      have hcp : c ≠ '+' := by rintro rfl; exact absurd hc (by decide)
      have hcm : c ≠ '-' := by rintro rfl; exact absurd hc (by decide)
      rw [stoi, if_neg hcp, if_neg hcm, ← hm, stoiNat_natDigits]
      simp only [Option.map_some', Int.ofNat_eq_coe]
      congr 1
      omega

/- ====================================================================
   PlacementTreeNewickMixin (src/lib/tree/printer/detailed.hpp)
   ==================================================================== -/

/-- Embeds the placement edge payload used by the edge-numbering mixin:
`edge_num` plus the placement count used for the optional comment. -/
structure PlacementEdgeData where
  edge_num : Int
  placementCount : ℕ
deriving DecidableEq, Repr

/-- Embeds the edge handed to the mixin; the payload sits in `data`. -/
structure PlacementEdge where
  data : PlacementEdgeData
deriving DecidableEq, Repr

/-- The `std::invalid_argument` message for an edge without a tag. -/
def msgMissingTag (name : String) : String :=
  "Edge at node \x27" ++ name ++
    "\x27 does not contain a tag value like \x27\x7b42\x7d\x27 for the placement edge_num of this edge."

/-- The `std::invalid_argument` message for an edge with more than one tag. -/
def msgAmbiguousTag (name : String) : String :=
  "Edge at node \x27" ++ name ++
    "\x27 contains more than one tag value like \x27\x7bxyz\x7d\x27. Expecting only one for the placement edge_num of this edge."

/-- Embeds `PlacementTreeNewickMixin::element_to_edge`.  The call to
`Base::element_to_edge` is modelled as the identity on the placement payload:
the wrapped default mixin only sets the branch length.  The C++ function
mutates `edge` by reference and throws; here it returns the final edge state
together with the outcome.  `edge.data.edge_num` is overwritten with -1
before the tag checks, exactly as in the source. -/
def element_to_edge (element : NewickBrokerElement) (edge : PlacementEdge) :
    PlacementEdge × Except String Unit :=
  let e1 : PlacementEdge := { edge with data := { edge.data with edge_num := -1 } }
  if element.tags.length = 0 then
    (e1, .error (msgMissingTag element.name))
  else if 1 < element.tags.length then
    (e1, .error (msgAmbiguousTag element.name))
  else
    match stoi element.tags.headI.data with
    | some v => ({ e1 with data := { e1.data with edge_num := v } }, .ok ())
    | none => (e1, .error "std::invalid_argument")

/-- Embeds `PlacementTreeNewickMixin::edge_to_element`.  The call to
`Base::edge_to_element` is modelled as the identity on tags and comments: the
wrapped default mixin only writes the branch length value. -/
def edge_to_element (print_edge_nums print_placement_counts : Bool)
    (edge : PlacementEdge) (element : NewickBrokerElement) : NewickBrokerElement :=
  let e2 :=
    if print_edge_nums then
      { element with tags := element.tags ++ [String.mk (to_string_int edge.data.edge_num)] }
    else element
  if print_placement_counts then
    { e2 with comments := e2.comments ++ [String.mk (natDigits edge.data.placementCount)] }
  else e2

/- ====================================================================
   Tree topology: rooted ordered trees and their links
   ==================================================================== -/

mutual
/-- Modelled from the spec: the shape of a rooted tree of the topology layer
(the `Tree`/`TreeNode` classes are not in the source tree); a node with an
ordered forest of children. -/
inductive RTree : Type where
  | node : Forest → RTree
deriving DecidableEq, Repr

/-- An ordered forest of child subtrees. -/
inductive Forest : Type where
  | fnil : Forest
  | fcons : RTree → Forest → Forest
deriving DecidableEq, Repr
end

/-- Number of trees in a forest. -/
def Forest.flen : Forest → ℕ
  | .fnil => 0
  | .fcons _ f => f.flen + 1

/-- The `i`-th tree of a forest. -/
def Forest.fget : Forest → ℕ → Option RTree
  | .fnil, _ => none
  | .fcons t _, 0 => some t
  | .fcons _ f, n + 1 => f.fget n

/-- Nodes addressed by child-index paths listed leaf-to-root: the node at
path `i :: q` is child `i` of the node at path `q`; `[]` is the root. -/
def nodeAt (t : RTree) : List ℕ → Option RTree
  | [] => some t
  | i :: q =>
    match nodeAt t q with
    | some (.node f) => f.fget i
    | none => none

/-- Number of children of the node at path `p` (0 if there is no such node). -/
def childCount (t : RTree) (p : List ℕ) : ℕ :=
  match nodeAt t p with
  | some (.node f) => f.flen
  | none => 0

/-- A link of the tree: `(p, false)` is the link on the parent side of the
edge leading to the node at path `p`, `(p, true)` the link at the node `p`
itself (its primary link, pointing rootward). -/
abbrev TLink := List ℕ × Bool

/-- Whether `l` denotes a link of tree `t`: the edge above the node at the
nonempty path `l.1` exists. -/
def validLink (t : RTree) (l : TLink) : Bool :=
  (!l.1.isEmpty) && (nodeAt t l.1).isSome

/-- Modelled from the spec: the `outer` pointer of a link, i.e. the link at
the other end of its edge (the `TreeLink` class is not in the source tree). -/
def linkOuter (l : TLink) : TLink := (l.1, !l.2)

/-- Modelled from the spec: the `next` pointer, stepping around the circular
ring of links at one node: the primary link first, then the child links in
order of children insertion (the `TreeLink` class is not in the source
tree).  The root node has no primary link, so its ring holds only the child
links. -/
def linkNext (t : RTree) (l : TLink) : TLink :=
  match l with
  | (p, true) =>
    if 0 < childCount t p then (0 :: p, false) else (p, true)
  | ([], false) => ([], false)
  | (i :: q, false) =>
    if i + 1 < childCount t q then ((i + 1) :: q, false)
    else
      match q with
      | [] => (0 :: ([] : List ℕ), false)
      | _ :: _ => (q, true)

/-- Embeds the step of `TreeIteratorEulertour::operator++`:
`link_ = link_->outer()->next()`. -/
def eulerStep (t : RTree) (l : TLink) : TLink := linkNext t (linkOuter l)

/-- Embeds `TreeIteratorEulertour::operator++` including its sentinel logic:
after stepping, a link equal to the start link becomes the end sentinel
(`nullptr`), returned here as `none`. -/
def iterStep (t : RTree) (start cur : TLink) : Option TLink :=
  let n := eulerStep t cur
  if n = start then none else some n

mutual
/-- The Euler tour of the subtree rooted at path `p`, as entered from its
parent: all links strictly inside the subtree plus its primary link
`(p, true)`, in visiting order. -/
def tourT : RTree → List ℕ → List TLink
  | .node f, p => tourF f p 0 ++ [(p, true)]

/-- The Euler tour piece of the children `i, i+1, ...` of the node at path
`q`: for each child its parent-side link, then its subtree tour. -/
def tourF : Forest → List ℕ → ℕ → List TLink
  | .fnil, _, _ => []
  | .fcons c f, q, i => (i :: q, false) :: (tourT c (i :: q) ++ tourF f q (i + 1))
end

/-- The canonical full Euler tour of a tree, starting at the root's first
child link. -/
def tour : RTree → List TLink
  | .node f => tourF f [] 0

mutual
/-- Number of edges of a rooted tree. -/
def edgesT : RTree → ℕ
  | .node f => edgesF f
/-- Number of edges contributed by a forest of children, including the
edges attaching the children to their parent. -/
def edgesF : Forest → ℕ
  | .fnil => 0
  | .fcons c f => 1 + edgesT c + edgesF f
end

/-- Edge count of a tree. -/
def edgeCount (t : RTree) : ℕ := edgesT t

/-- Runs the embedded iterator: emits the current link, then advances with
`iterStep` until the end sentinel (or until the fuel runs out, which the
Euler-tour theorem shows never happens). -/
def iterTourAux (t : RTree) (start : TLink) : ℕ → TLink → List TLink
  | 0, cur => [cur]
  | fuel + 1, cur =>
    cur ::
      (match iterStep t start cur with
       | none => []
       | some n => iterTourAux t start fuel n)

/-- The full link sequence visited by the embedded Euler tour iterator
constructed on start link `s`. -/
def iterTour (t : RTree) (s : TLink) : List TLink :=
  iterTourAux t s (2 * edgeCount t) s

/- ====================================================================
   MassTreeKmeans (src/lib/genesis/tree/formats/newick/element.hpp,
   second embedded translation unit: genesis/tree/mass_tree/kmeans.cpp)
   ==================================================================== -/

/-- Modelled from the spec: a mass tree as the K-means functions see it.
`topo` is the tree shape; `hasMassData` models the runtime payload-type
check `tree_data_is<MassTreeNodeData, MassTreeEdgeData>` (the payload
classes are not in the source tree); `masses` is the position-to-mass map of
the whole tree, flattened to a list of (position, mass) entries. -/
structure MassTree where
  topo : RTree
  hasMassData : Bool
  masses : List (ℚ × ℚ)

/-- Modelled from the spec: `tree_data_is<MassTreeNodeData, MassTreeEdgeData>`
(not in the source tree): whether the tree carries the mass payload types. -/
def tree_data_is (t : MassTree) : Bool := t.hasMassData

/-- Modelled from the spec: `identical_topology` (not in the source tree):
two trees have identical topology when their shapes coincide, ignoring all
payload values. -/
def identical_topology (a b : MassTree) : Bool := a.topo == b.topo

/-- Checks the payload types of every tree, in order; the loop body of
`MassTreeKmeans::data_validation`. -/
def checkMassData : List MassTree → Except String Unit
  | [] => .ok ()
  | t :: rest =>
    if tree_data_is t then checkMassData rest
    else .error "Trees for Kmeans do not have MassTree data types."

/-- Checks that consecutive trees have identical topology; the second loop of
`MassTreeKmeans::data_validation`. -/
def checkTopologies : List MassTree → Except String Unit
  | [] => .ok ()
  | [_] => .ok ()
  | a :: b :: rest =>
    if identical_topology a b then checkTopologies (b :: rest)
    else .error "Trees for Kmeans do not have identical topologies."

/-- Embeds `MassTreeKmeans::data_validation`: every tree must carry the mass
payload types, and all trees must have identical topology; returns true when
both loops pass. -/
def data_validation (data : List MassTree) : Except String Bool :=
  match checkMassData data with
  | .error e => .error e
  | .ok () =>
    match checkTopologies data with
    | .error e => .error e
    | .ok () => .ok true

/-- Modelled from the spec: `mass_tree_clear_masses` (not in the source
tree): removes all masses from the tree. -/
def mass_tree_clear_masses (t : MassTree) : MassTree := { t with masses := [] }

/-- Adds one (position, mass) entry into a mass list, summing masses at a
matching position and appending a new entry otherwise. -/
def insertMass : List (ℚ × ℚ) → ℚ × ℚ → List (ℚ × ℚ)
  | [], pm => [pm]
  | (p, m) :: rest, pm =>
    if p = pm.1 then (p, m + pm.2) :: rest else (p, m) :: insertMass rest pm

/-- Modelled from the spec: `mass_tree_merge_trees_inplace` (not in the
source tree): adds the masses of `src` into `dst`, summing masses at
matching positions. -/
def mass_tree_merge_trees_inplace (dst src : MassTree) : MassTree :=
  { dst with masses := src.masses.foldl insertMass dst.masses }

/-- Modelled from the spec: `mass_tree_sum_of_masses` (not in the source
tree): the total mass on the tree. -/
def mass_tree_sum_of_masses (t : MassTree) : ℚ :=
  (t.masses.map Prod.snd).sum

/-- Modelled from the spec: `mass_tree_normalize_masses` (not in the source
tree): scales all masses so the total becomes 1; a tree without mass is left
unchanged. -/
def mass_tree_normalize_masses (t : MassTree) : MassTree :=
  let s := mass_tree_sum_of_masses t
  if s = 0 then t
  else { t with masses := t.masses.map (fun pm => (pm.1, pm.2 / s)) }

/-- The accumulation loop of `MassTreeKmeans::update_centroids`: for every
(tree, assignment) pair, merge the tree into its assigned centroid. -/
def accumulateCentroids : List (MassTree × ℕ) → List MassTree → List MassTree
  | [], cs => cs
  | (d, a) :: rest, cs =>
    accumulateCentroids rest
      (cs.set a (mass_tree_merge_trees_inplace (cs.getD a d) d))

/-- Embeds `MassTreeKmeans::update_centroids`: clear all centroid masses,
additively merge every tree into its assigned centroid, then normalize every
centroid.  (The internal `assert` on counts versus masses is the property
proved below, not part of the state transformation.) -/
def update_centroids (data : List MassTree) (assignments : List ℕ)
    (centroids : List MassTree) : List MassTree :=
  let cleared := centroids.map mass_tree_clear_masses
  let accumulated := accumulateCentroids (data.zip assignments) cleared
  accumulated.map mass_tree_normalize_masses

/- ====================================================================
   Euler tour: chain structure of the canonical tour
   ==================================================================== -/

/-- One step of the Euler tour sends `a` to `b`. -/
def stepRel (t : RTree) (a b : TLink) : Prop := eulerStep t a = b

/-- The first link visited inside the subtree tour `tourT u p`. -/
def tourHeadT : RTree → List ℕ → TLink
  | .node .fnil, p => (p, true)
  | .node (.fcons _ _), p => (0 :: p, false)

theorem head?_append_left {α : Type} {l₁ : List α} (l₂ : List α) (h : l₁ ≠ []) :
    (l₁ ++ l₂).head? = l₁.head? := by
  cases l₁ with
  | nil => exact absurd rfl h
  | cons a t => rfl

theorem getLast?_append_right {α : Type} (l₁ : List α) {l₂ : List α} (h : l₂ ≠ []) :
    (l₁ ++ l₂).getLast? = l₂.getLast? := by
  induction l₁ with
  | nil => rfl
  | cons a t ih =>
    have hne : t ++ l₂ ≠ [] := fun hx => h (List.append_eq_nil.mp hx).2
    cases hm : t ++ l₂ with
    | nil => exact absurd hm hne
    | cons b l =>
      rw [hm] at ih
      calc ((a :: t) ++ l₂).getLast? = (a :: b :: l).getLast? := by rw [List.cons_append, hm]
      _ = (b :: l).getLast? := List.getLast?_cons_cons
      _ = l₂.getLast? := ih

theorem eulerStep_entry (t : RTree) (p : List ℕ) (u : RTree) (h : nodeAt t p = some u) :
    eulerStep t (p, false) = tourHeadT u p := by
  cases u with
  | node f =>
    cases f with
    | fnil => simp [eulerStep, linkOuter, linkNext, childCount, h, tourHeadT, Forest.flen]
    | fcons c g =>
      simp [eulerStep, linkOuter, linkNext, childCount, h, tourHeadT, Forest.flen]


/-- The link that the Euler tour reaches after finishing all children of the
node at path `q`: the node's own primary link, or the root's first child
link when `q` is the root. -/
def exitLink : List ℕ → TLink
  | [] => ((0 :: ([] : List ℕ) : List ℕ), false)
  | q => (q, true)

theorem eulerStep_exit (t : RTree) (q : List ℕ) (i : ℕ) (fa : Forest)
    (hq : nodeAt t q = some (.node fa)) :
    eulerStep t ((i :: q, true) : TLink) =
      (if i + 1 < fa.flen then (((i + 1) :: q : List ℕ), false) else exitLink q) := by
  cases q with
  | nil => simp [eulerStep, linkOuter, linkNext, childCount, hq, exitLink]
  | cons a q' => simp [eulerStep, linkOuter, linkNext, childCount, hq, exitLink]

theorem nodeAt_child (t : RTree) (q : List ℕ) (fa : Forest) (i : ℕ)
    (hq : nodeAt t q = some (.node fa)) : nodeAt t (i :: q) = fa.fget i := by
  simp [nodeAt, hq]

mutual
theorem chainTourT (u : RTree) :
    ∀ (t : RTree) (p : List ℕ), nodeAt t p = some u → p ≠ [] →
      List.Chain' (stepRel t) (tourT u p) ∧
      (tourT u p).head? = some (tourHeadT u p) ∧
      (tourT u p).getLast? = some (p, true) := by
  intro t p hp hne
  match u with
  | .node .fnil =>
    refine ⟨?_, ?_, ?_⟩ <;> simp [tourT, tourF, tourHeadT]
  | .node (.fcons c g) =>
    have hres := chainTourF (Forest.fcons c g) t p 0 (Forest.fcons c g) hp
      (fun j => by rw [Nat.zero_add]) (by simp)
    obtain ⟨hch, hnilp, hconsp⟩ := hres
    have hhd' := (hconsp c g rfl).1
    have hlast' := (hconsp c g rfl).2
    have hfne : tourF (Forest.fcons c g) p 0 ≠ [] := by
      intro hx; rw [hx] at hhd'; cases hhd'
    refine ⟨?_, ?_, ?_⟩
    · rw [tourT, List.chain'_append]
      refine ⟨hch, List.chain'_singleton _, ?_⟩
      intro x hx y hy
      rw [hlast'] at hx
      simp only [Option.mem_def, Option.some_inj] at hx
      simp only [List.head?_cons, Option.mem_def, Option.some_inj] at hy
      subst hx; subst hy
      have hflen : (Forest.fcons c g).flen = g.flen + 1 := rfl
      have hstep := eulerStep_exit t p ((Forest.fcons c g).flen - 1) (Forest.fcons c g) hp
      rw [stepRel, hstep]
      have hnotlt : ¬ ((Forest.fcons c g).flen - 1 + 1 < (Forest.fcons c g).flen) := by
        rw [hflen]; omega
      rw [if_neg hnotlt]
      cases p with
      | nil => exact absurd rfl hne
      | cons a p' => rfl
    · rw [tourT, head?_append_left _ hfne, hhd']
      rfl
    · rw [tourT, getLast?_append_right _ (by simp : ([(p, true)] : List TLink) ≠ [])]
      rfl

theorem chainTourF (g : Forest) :
    ∀ (t : RTree) (q : List ℕ) (i : ℕ) (fa : Forest),
      nodeAt t q = some (.node fa) → (∀ j, g.fget j = fa.fget (i + j)) →
      i + g.flen = fa.flen →
      List.Chain' (stepRel t) (tourF g q i) ∧
      ((g = .fnil → tourF g q i = []) ∧
       ∀ c g', g = .fcons c g' →
         (tourF g q i).head? = some ((i :: q : List ℕ), false) ∧
         (tourF g q i).getLast? = some (((fa.flen - 1) :: q : List ℕ), true)) := by
  intro t q i fa hq hdrop hlen
  match g with
  | .fnil =>
    refine ⟨by simp [tourF], fun _ => rfl, ?_⟩
    intro c g' hx; cases hx
  | .fcons c g' =>
    have hc : nodeAt t (i :: q) = some c := by
      rw [nodeAt_child t q fa i hq]
      have := hdrop 0
      simpa [Forest.fget] using this.symm
    have hT := chainTourT c t (i :: q) hc (by simp)
    obtain ⟨chA, hdA, lastA⟩ := hT
    have hAne : tourT c (i :: q) ≠ [] := by
      intro hx; rw [hx] at hdA; cases hdA
    have hdrop' : ∀ j, g'.fget j = fa.fget (i + 1 + j) := by
      intro j
      have := hdrop (j + 1)
      simp only [Forest.fget] at this
      rw [this]
      congr 1
      omega
    have hlen' : (i + 1) + g'.flen = fa.flen := by
      have hx : (Forest.fcons c g').flen = g'.flen + 1 := rfl
      rw [hx] at hlen
      omega
    have hF := chainTourF g' t q (i + 1) fa hq hdrop' hlen'
    obtain ⟨chB, hBnil, hBcons⟩ := hF
    refine ⟨?_, ⟨fun hx => Forest.noConfusion hx, ?_⟩⟩
    · rw [tourF, List.chain'_cons']
      constructor
      · intro y hy
        rw [head?_append_left _ hAne, hdA] at hy
        simp only [Option.mem_def, Option.some_inj] at hy
        subst hy
        exact eulerStep_entry t (i :: q) c hc
      · rw [List.chain'_append]
        refine ⟨chA, chB, ?_⟩
        intro x hx y hy
        rw [lastA] at hx
        simp only [Option.mem_def, Option.some_inj] at hx
        subst hx
        cases g' with
        | fnil =>
          rw [hBnil rfl] at hy
          cases hy
        | fcons c2 g2 =>
          have hBhd := (hBcons c2 g2 rfl).1
          rw [hBhd] at hy
          simp only [Option.mem_def, Option.some_inj] at hy
          subst hy
          rw [stepRel, eulerStep_exit t q i fa hq]
          have hlt : i + 1 < fa.flen := by
            have hx : (Forest.fcons c2 g2).flen = g2.flen + 1 := rfl
            rw [hx] at hlen'
            omega
          rw [if_pos hlt]
    · intro c0 g0 hx0
      constructor
      · rw [tourF]; rfl
      · cases g' with
        | fnil =>
          have hBnil' := hBnil rfl
          have hflen : i + 1 = fa.flen := by
            have hx : (Forest.fcons c Forest.fnil).flen = 1 := rfl
            rw [hx] at hlen
            omega
          rw [tourF, hBnil', List.append_nil]
          have hstep : ((((i :: q : List ℕ), false) : TLink) :: tourT c (i :: q)).getLast? =
              (tourT c (i :: q)).getLast? := by
            cases hm : tourT c (i :: q) with
            | nil => exact absurd hm hAne
            | cons b l => rw [List.getLast?_cons_cons]
          rw [hstep, lastA]
          congr 3
          omega
        | fcons c2 g2 =>
          have hBlast := (hBcons c2 g2 rfl).2
          have hBne : tourF (Forest.fcons c2 g2) q (i + 1) ≠ [] := by
            intro hx2
            have hy := (hBcons c2 g2 rfl).1
            rw [hx2] at hy; cases hy
          rw [tourF]
          have h1 : (tourT c (i :: q) ++ tourF (Forest.fcons c2 g2) q (i + 1)) ≠ [] := by
            intro hx2
            exact hAne (List.append_eq_nil.mp hx2).1
          have h2 : ((((i :: q : List ℕ), false) : TLink) ::
              (tourT c (i :: q) ++ tourF (Forest.fcons c2 g2) q (i + 1))).getLast? =
              (tourT c (i :: q) ++ tourF (Forest.fcons c2 g2) q (i + 1)).getLast? := by
            cases hm : tourT c (i :: q) ++ tourF (Forest.fcons c2 g2) q (i + 1) with
            | nil => exact absurd hm h1
            | cons b l => rw [List.getLast?_cons_cons]
          rw [h2, getLast?_append_right _ hBne, hBlast]
end

mutual
theorem lengthTourT (u : RTree) : ∀ p, (tourT u p).length = 2 * edgesT u + 1 := by
  intro p
  match u with
  | .node f =>
    have hlf := lengthTourF f p 0
    simp only [tourT, edgesT, List.length_append, List.length_cons, List.length_nil, hlf]

theorem lengthTourF (g : Forest) : ∀ q i, (tourF g q i).length = 2 * edgesF g := by
  intro q i
  match g with
  | .fnil => simp [tourF, edgesF]
  | .fcons c g' =>
    have h1 := lengthTourT c (i :: q)
    have h2 := lengthTourF g' q (i + 1)
    simp only [tourF, edgesF, List.length_cons, List.length_append, h1, h2]
    omega
end

theorem length_tour (t : RTree) : (tour t).length = 2 * edgeCount t := by
  cases t with
  | node f => simpa [tour, edgeCount, edgesT] using lengthTourF f [] 0

theorem tour_facts (f : Forest) (hne : f ≠ .fnil) :
    List.Chain' (stepRel (.node f)) (tour (.node f)) ∧
    (tour (.node f)).head? = some ((0 :: ([] : List ℕ) : List ℕ), false) ∧
    (tour (.node f)).getLast? = some (((f.flen - 1) :: ([] : List ℕ) : List ℕ), true) := by
  cases f with
  | fnil => exact absurd rfl hne
  | fcons c g =>
    have hres := chainTourF (Forest.fcons c g) (.node (Forest.fcons c g)) [] 0
      (Forest.fcons c g) rfl (fun j => by rw [Nat.zero_add]) (by simp)
    obtain ⟨hch, hnilp, hconsp⟩ := hres
    exact ⟨hch, (hconsp c g rfl).1, (hconsp c g rfl).2⟩

theorem tour_wrap (f : Forest) (hne : f ≠ .fnil) :
    eulerStep (.node f) (((f.flen - 1) :: ([] : List ℕ) : List ℕ), true) =
      ((0 :: ([] : List ℕ) : List ℕ), false) := by
  have hstep := eulerStep_exit (.node f) [] (f.flen - 1) f rfl
  rw [hstep]
  have hpos : 0 < f.flen := by
    cases f with
    | fnil => exact absurd rfl hne
    | fcons c g => simp [Forest.flen]
  rw [if_neg (by omega)]
  rfl

theorem tour_cyclic (f : Forest) (hne : f ≠ .fnil) (j : ℕ)
    (h : j < (tour (.node f)).length) :
    eulerStep (.node f) ((tour (.node f)).get ⟨j, h⟩) =
      (tour (.node f)).get
        ⟨(j + 1) % (tour (.node f)).length, Nat.mod_lt _ (by omega)⟩ := by
  obtain ⟨hch, hhd, hlast⟩ := tour_facts f hne
  set T := tour (.node f) with hT
  have hTne : T ≠ [] := by intro hx; rw [hx] at hhd; cases hhd
  by_cases hj : j < T.length - 1
  · have := List.chain'_iff_get.mp hch j hj
    have hmod : (j + 1) % T.length = j + 1 := Nat.mod_eq_of_lt (by omega)
    simpa [stepRel, hmod] using this
  · have hj' : j = T.length - 1 := by omega
    subst hj'
    have hmod : (T.length - 1 + 1) % T.length = 0 := by
      have : T.length - 1 + 1 = T.length := by omega
      rw [this, Nat.mod_self]
    have hlast2 : T.getLast? = some (T.get ⟨T.length - 1, h⟩) := by
      rw [List.getLast?_eq_getLast_of_ne_nil hTne, List.getLast_eq_get]
    rw [hlast2] at hlast
    have hpos : 0 < T.length := by omega
    have hhd2 : T.head? = some (T.get ⟨0, hpos⟩) := by
      have hx := List.get?_eq_get (l := T) (n := 0) hpos
      rw [List.get?_zero] at hx
      exact hx
    rw [hhd2] at hhd
    simp only [Option.some_inj] at hlast hhd
    rw [hlast]
    have := tour_wrap f hne
    rw [this]
    have hget : T.get ⟨(T.length - 1 + 1) % T.length, Nat.mod_lt _ (by omega)⟩ =
        T.get ⟨0, by omega⟩ := by
      congr 1
      exact Fin.ext hmod
    rw [hget, hhd]

/- ====================================================================
   Euler tour: membership and distinctness
   ==================================================================== -/

theorem nodeAt_append (u : RTree) (r : List ℕ) :
    ∀ p, nodeAt u (r ++ p) = (nodeAt u p).bind (fun v => nodeAt v r) := by
  induction r with
  | nil =>
    intro p
    rw [List.nil_append]
    cases h : nodeAt u p <;> simp [nodeAt, h]
  | cons i r ih =>
    intro p
    have hstep : nodeAt u ((i :: r) ++ p) =
        (match nodeAt u (r ++ p) with
         | some (.node f) => f.fget i
         | none => none) := by
      rw [List.cons_append]
      rfl
    rw [hstep, ih p]
    cases hp : nodeAt u p with
    | none => simp
    | some v =>
      rw [Option.some_bind]
      cases hv : nodeAt v r with
      | none => simp [nodeAt, hv]
      | some w => cases w with | node fw => simp [nodeAt, hv]

theorem nodeAt_single (f : Forest) (j : ℕ) :
    nodeAt (.node f) [j] = f.fget j := by
  simp [nodeAt]

mutual
theorem memTourT (u : RTree) :
    ∀ (p : List ℕ) (l : TLink),
      l ∈ tourT u p ↔
        (l = (p, true) ∨
         ∃ r b, r ≠ [] ∧ (nodeAt u r).isSome = true ∧ l = (r ++ p, b)) := by
  intro p l
  match u with
  | .node f =>
    rw [tourT, List.mem_append, List.mem_singleton]
    have hF := memTourF f p 0 l
    constructor
    · intro h
      rcases h with h | h
      · rcases (hF.mp h) with ⟨j, c, hj, r, b, hrc, hl⟩
        right
        refine ⟨r ++ [j], b, by simp, ?_, ?_⟩
        · rw [nodeAt_append, nodeAt_single, hj, Option.some_bind]
          rcases hrc with hrc | hrc
          · subst hrc; simp [nodeAt]
          · exact hrc
        · rw [hl]
          simp
      · exact Or.inl h
    · intro h
      rcases h with h | h
      · exact Or.inr h
      · rcases h with ⟨r, b, hrne, hrsome, hl⟩
        left
        rcases List.eq_nil_or_concat r with hr0 | ⟨L, a, hr⟩
        · exact absurd hr0 hrne
        · subst hr
          rw [List.concat_eq_append, nodeAt_append, nodeAt_single] at hrsome
          cases hj : f.fget a with
          | none => rw [hj] at hrsome; simp at hrsome
          | some c =>
            rw [hj, Option.some_bind] at hrsome
            refine hF.mpr ⟨a, c, hj, L, b, Or.inr hrsome, ?_⟩
            rw [hl]
            simp [List.concat_eq_append]

theorem memTourF (g : Forest) :
    ∀ (q : List ℕ) (i : ℕ) (l : TLink),
      l ∈ tourF g q i ↔
        ∃ j c, g.fget j = some c ∧ ∃ r b,
          (r = [] ∨ (nodeAt c r).isSome = true) ∧ l = (r ++ (i + j) :: q, b) := by
  intro q i l
  match g with
  | .fnil =>
    simp [tourF, Forest.fget]
  | .fcons c0 g' =>
    rw [tourF, List.mem_cons, List.mem_append]
    have hT := memTourT c0 (i :: q) l
    have hF := memTourF g' q (i + 1) l
    constructor
    · intro h
      rcases h with h | h | h
      · exact ⟨0, c0, rfl, [], false, Or.inl rfl, by simpa using h⟩
      · rcases (hT.mp h) with h | ⟨r, b, hrne, hrsome, hl⟩
        · exact ⟨0, c0, rfl, [], true, Or.inl rfl, by simpa using h⟩
        · exact ⟨0, c0, rfl, r, b, Or.inr hrsome, by simpa using hl⟩
      · rcases (hF.mp h) with ⟨j, c, hj, r, b, hrc, hl⟩
        refine ⟨j + 1, c, hj, r, b, hrc, ?_⟩
        rw [hl, show i + 1 + j = i + (j + 1) from by omega]
    · rintro ⟨j, c, hj, r, b, hrc, hl⟩
      cases j with
      | zero =>
        have hc : c = c0 := by
          simp only [Forest.fget] at hj
          exact (Option.some_inj.mp hj).symm
        subst hc
        cases r with
        | nil =>
          cases b with
          | false => left; simpa using hl
          | true =>
            right; left
            refine hT.mpr (Or.inl ?_)
            simpa using hl
        | cons x rs =>
          have hrsome : (nodeAt c (x :: rs)).isSome = true := by
            rcases hrc with hrc | hrc
            · exact absurd hrc (by simp)
            · exact hrc
          right; left
          refine hT.mpr (Or.inr ⟨x :: rs, b, by simp, hrsome, ?_⟩)
          simpa using hl
      | succ j =>
        right; right
        refine hF.mpr ⟨j, c, hj, r, b, hrc, ?_⟩
        rw [hl, show i + (j + 1) = i + 1 + j from by omega]
end

theorem append_cons_same_tail {r r' : List ℕ} {a a' : ℕ} {q : List ℕ}
    (h : r ++ a :: q = r' ++ a' :: q) : a = a' := by
  have h2 : (r ++ [a]) ++ q = (r' ++ [a']) ++ q := by simpa using h
  have h3 := List.append_cancel_right h2
  have h4 := congrArg List.getLast? h3
  simpa using h4

mutual
theorem nodupTourT (u : RTree) : ∀ p, (tourT u p).Nodup := by
  intro p
  match u with
  | .node f =>
    rw [tourT, List.nodup_append]
    refine ⟨nodupTourF f p 0, List.nodup_singleton _, ?_⟩
    intro a ha hb
    rw [List.mem_singleton] at hb
    subst hb
    rcases (memTourF f p 0 _).mp ha with ⟨j, c, hj, r, b, hrc, hl⟩
    have := congrArg (fun x : TLink => x.1.length) hl
    simp at this
    omega

theorem nodupTourF (g : Forest) : ∀ q i, (tourF g q i).Nodup := by
  intro q i
  match g with
  | .fnil => simp [tourF]
  | .fcons c0 g' =>
    rw [tourF, List.nodup_cons, List.nodup_append]
    refine ⟨?_, nodupTourT c0 (i :: q), nodupTourF g' q (i + 1), ?_⟩
    · intro h
      rw [List.mem_append] at h
      rcases h with h | h
      · rcases (memTourT c0 (i :: q) _).mp h with h | ⟨r, b, hrne, hrsome, hl⟩
        · simp at h
        · have hlen := congrArg (fun x : TLink => x.1.length) hl
          simp only [List.length_append, List.length_cons] at hlen
          exact hrne (List.length_eq_zero.mp (by omega))
      · rcases (memTourF g' q (i + 1) _).mp h with ⟨j, c, hj, r, b, hrc, hl⟩
        have hlen := congrArg (fun x : TLink => x.1.length) hl
        simp only [List.length_append, List.length_cons] at hlen
        have hr0 : r = [] := List.length_eq_zero.mp (by omega)
        subst hr0
        have hfst := congrArg Prod.fst hl
        simp only [List.nil_append] at hfst
        injection hfst with h1 h2
        omega
    · intro a ha hb
      rcases (memTourF g' q (i + 1) _).mp hb with ⟨j, c, hj, r', b', hrc', hl'⟩
      rcases (memTourT c0 (i :: q) _).mp ha with h | ⟨r, b, hrne, hrsome, hl⟩
      · rw [h] at hl'
        have hfst := congrArg Prod.fst hl'
        simp only at hfst
        have hlen := congrArg List.length hfst
        simp only [List.length_append, List.length_cons] at hlen
        have hr0 : r' = [] := List.length_eq_zero.mp (by omega)
        subst hr0
        simp only [List.nil_append] at hfst
        injection hfst with h1 h2
        omega
      · rw [hl] at hl'
        have hfst := congrArg Prod.fst hl'
        simp only at hfst
        have := append_cons_same_tail hfst
        omega
end

theorem tour_nodup (t : RTree) : (tour t).Nodup := by
  cases t with
  | node f => exact nodupTourF f [] 0

theorem tour_mem (t : RTree) (l : TLink) : l ∈ tour t ↔ validLink t l = true := by
  cases t with
  | node f =>
    rw [show tour (.node f) = tourF f [] 0 from rfl, memTourF f [] 0 l]
    constructor
    · rintro ⟨j, c, hj, r, b, hrc, hl⟩
      rw [hl, validLink]
      simp only [Bool.and_eq_true, Bool.not_eq_true']
      constructor
      · simp
      · rw [show ((0 + j : ℕ) :: ([] : List ℕ)) = [j] from by simp]
        rw [nodeAt_append, nodeAt_single, hj, Option.some_bind]
        rcases hrc with hrc | hrc
        · subst hrc; simp [nodeAt]
        · exact hrc
    · intro hv
      rw [validLink, Bool.and_eq_true, Bool.not_eq_true'] at hv
      obtain ⟨hne, hsome⟩ := hv
      rcases List.eq_nil_or_concat l.1 with h0 | ⟨L, a, hpl⟩
      · rw [h0] at hne; simp at hne
      · rw [hpl, List.concat_eq_append, nodeAt_append, nodeAt_single] at hsome
        cases hj : f.fget a with
        | none => rw [hj] at hsome; simp at hsome
        | some c =>
          rw [hj, Option.some_bind] at hsome
          refine ⟨a, c, hj, L, l.2, Or.inr hsome, ?_⟩
          rw [show ((0 + a : ℕ) :: ([] : List ℕ)) = [a] from by simp]
          rw [← List.concat_eq_append, ← hpl]

/- ====================================================================
   Euler tour: the iterator visits a rotation of the canonical tour
   ==================================================================== -/

theorem iterTourAux_cycle (t : RTree) (L : List TLink) (hnd : L.Nodup)
    (h0 : 0 < L.length)
    (hcyc : ∀ (j : ℕ) (hj : j < L.length),
      eulerStep t (L.get ⟨j, hj⟩) =
        L.get ⟨(j + 1) % L.length, Nat.mod_lt _ (by omega)⟩) :
    ∀ (f k : ℕ) (hk : k < L.length), f + k = L.length → 1 ≤ f →
      iterTourAux t (L.get ⟨0, h0⟩) f (L.get ⟨k, hk⟩) = L.drop k := by
  intro f
  induction f with
  | zero => intro k hk h hf; omega
  | succ f ih =>
    intro k hk hksum _
    rw [iterTourAux]
    by_cases hlast : k = L.length - 1
    · subst hlast
      have hf0 : f = 0 := by omega
      subst hf0
      have hmod : (L.length - 1 + 1) % L.length = 0 := by
        rw [show L.length - 1 + 1 = L.length from by omega, Nat.mod_self]
      have hnone : iterStep t (L.get ⟨0, h0⟩) (L.get ⟨L.length - 1, hk⟩) = none := by
        rw [iterStep]
        simp only [hcyc (L.length - 1) hk]
        rw [show (⟨(L.length - 1 + 1) % L.length, Nat.mod_lt _ (by omega)⟩ :
              Fin L.length) = ⟨0, h0⟩ from Fin.ext hmod]
        simp
      rw [hnone]
      have h1 : L.length - 1 < L.length := by omega
      rw [List.drop_eq_getElem_cons h1]
      rw [show L.length - 1 + 1 = L.length from by omega, List.drop_length]
      simp [List.get_eq_getElem]
    · have hk1 : k + 1 < L.length := by omega
      have hmod : (k + 1) % L.length = k + 1 := Nat.mod_eq_of_lt hk1
      have hget : L.get ⟨(k + 1) % L.length, Nat.mod_lt _ (by omega)⟩ =
          L.get ⟨k + 1, hk1⟩ := by
        congr 1
        exact Fin.ext hmod
      have hne : L.get ⟨k + 1, hk1⟩ ≠ L.get ⟨0, h0⟩ := by
        intro hx
        have := (hnd.get_inj_iff).mp hx
        have hval := congrArg Fin.val this
        simp at hval
      have hsome : iterStep t (L.get ⟨0, h0⟩) (L.get ⟨k, hk⟩) =
          some (L.get ⟨k + 1, hk1⟩) := by
        rw [iterStep]
        simp only [hcyc k hk, hget]
        rw [if_neg hne]
      rw [hsome]
      show L.get ⟨k, hk⟩ :: iterTourAux t (L.get ⟨0, h0⟩) f (L.get ⟨k + 1, hk1⟩) =
        List.drop k L
      rw [ih (k + 1) hk1 (by omega) (by omega)]
      rw [List.drop_eq_getElem_cons hk]
      simp [List.get_eq_getElem]

theorem iterTour_eq_rotate (t : RTree) (s : TLink) (hs : validLink t s = true) :
    ∃ (i : ℕ) (hi : i < (tour t).length),
      (tour t).get ⟨i, hi⟩ = s ∧ iterTour t s = (tour t).rotate i := by
  cases t with
  | node f =>
    have hmem : s ∈ tour (.node f) := (tour_mem _ s).mpr hs
    have hne : f ≠ .fnil := by
      intro hx; subst hx; simp [tour, tourF] at hmem
    obtain ⟨⟨i, hi⟩, hgi⟩ := List.mem_iff_get.mp hmem
    refine ⟨i, hi, hgi, ?_⟩
    have hlen : ((tour (.node f)).rotate i).length = (tour (.node f)).length :=
      List.length_rotate _ i
    have h0 : 0 < (tour (.node f)).length := by omega
    have h0L : 0 < ((tour (.node f)).rotate i).length := by omega
    have hndL : ((tour (.node f)).rotate i).Nodup :=
      ((List.rotate_perm _ i).nodup_iff).mpr (tour_nodup _)
    have hget : ∀ (k : ℕ) (hk : k < ((tour (.node f)).rotate i).length),
        ((tour (.node f)).rotate i).get ⟨k, hk⟩ =
          (tour (.node f)).get ⟨(k + i) % (tour (.node f)).length, Nat.mod_lt _ h0⟩ := by
      intro k hk
      rw [List.get_rotate]
    have hcycL : ∀ (j : ℕ) (hj : j < ((tour (.node f)).rotate i).length),
        eulerStep (.node f) (((tour (.node f)).rotate i).get ⟨j, hj⟩) =
          ((tour (.node f)).rotate i).get
            ⟨(j + 1) % ((tour (.node f)).rotate i).length, Nat.mod_lt _ h0L⟩ := by
      intro j hj
      rw [hget j hj, hget ((j + 1) % ((tour (.node f)).rotate i).length)
        (Nat.mod_lt _ h0L)]
      rw [tour_cyclic f hne ((j + i) % (tour (.node f)).length) (Nat.mod_lt _ h0)]
      congr 1
      apply Fin.ext
      simp only
      rw [hlen]
      have e1 : ((j + i) % (tour (.node f)).length + 1) % (tour (.node f)).length =
          (j + i + 1) % (tour (.node f)).length :=
        (Nat.mod_modEq (j + i) _).add_right 1
      have e2 : ((j + 1) % (tour (.node f)).length + i) % (tour (.node f)).length =
          (j + 1 + i) % (tour (.node f)).length :=
        (Nat.mod_modEq (j + 1) _).add_right i
      rw [e1, e2]
      congr 1
      omega
    have hstart : ((tour (.node f)).rotate i).get ⟨0, h0L⟩ = s := by
      rw [hget 0 h0L, ← hgi]
      congr 1
      apply Fin.ext
      simp [Nat.mod_eq_of_lt hi]
    have hfuel : 2 * edgeCount (.node f) = ((tour (.node f)).rotate i).length := by
      rw [hlen, length_tour]
    calc iterTour (.node f) s
        = iterTourAux (.node f) s (((tour (.node f)).rotate i).length) s := by
          rw [iterTour, hfuel]
    _ = iterTourAux (.node f) (((tour (.node f)).rotate i).get ⟨0, h0L⟩)
          (((tour (.node f)).rotate i).length)
          (((tour (.node f)).rotate i).get ⟨0, h0L⟩) := by rw [hstart]
    _ = ((tour (.node f)).rotate i).drop 0 :=
          iterTourAux_cycle (.node f) _ hndL h0L hcycL _ 0 h0L (by omega) (by omega)
    _ = (tour (.node f)).rotate i := List.drop_zero _

theorem tourRotate_cyclic (f : Forest) (hne : f ≠ .fnil) (i : ℕ) (j : ℕ)
    (hj : j < ((tour (.node f)).rotate i).length) :
    eulerStep (.node f) (((tour (.node f)).rotate i).get ⟨j, hj⟩) =
      ((tour (.node f)).rotate i).get
        ⟨(j + 1) % ((tour (.node f)).rotate i).length, Nat.mod_lt _ (by omega)⟩ := by
  have hlen : ((tour (.node f)).rotate i).length = (tour (.node f)).length :=
    List.length_rotate _ i
  have h0 : 0 < (tour (.node f)).length := by omega
  have h0L : 0 < ((tour (.node f)).rotate i).length := by omega
  rw [List.get_rotate, List.get_rotate]
  rw [tour_cyclic f hne ((j + i) % (tour (.node f)).length) (Nat.mod_lt _ h0)]
  congr 1
  apply Fin.ext
  simp only
  rw [hlen]
  have e1 : ((j + i) % (tour (.node f)).length + 1) % (tour (.node f)).length =
      (j + i + 1) % (tour (.node f)).length :=
    (Nat.mod_modEq (j + i) _).add_right 1
  have e2 : ((j + 1) % (tour (.node f)).length + i) % (tour (.node f)).length =
      (j + 1 + i) % (tour (.node f)).length :=
    (Nat.mod_modEq (j + 1) _).add_right i
  rw [e1, e2]
  congr 1
  omega

/-- The full contract of the Euler tour iterator started on link `s`: the
visited sequence has length twice the edge count, visits every link of the
tree exactly once, starts at `s`, reaches the end sentinel exactly at the
link from which the step returns to `s`, and its multiset of visited links
does not depend on the start link. -/
def EulerTourOk (t : RTree) (s : TLink) : Prop :=
  (iterTour t s).length = 2 * edgeCount t ∧
  (iterTour t s).Nodup ∧
  (∀ l, l ∈ iterTour t s ↔ validLink t l = true) ∧
  (iterTour t s).head? = some s ∧
  (∀ x, x ∈ iterTour t s →
    (iterStep t s x = none ↔ (iterTour t s).getLast? = some x)) ∧
  (∀ s', validLink t s' = true →
    (iterTour t s' : Multiset TLink) = (iterTour t s : Multiset TLink))

/-- C6: for every tree with E edges and every start link, the Euler tour
iterator whose step is `current = current.outer().next()` visits every link
exactly once (tour length exactly 2E), reaches the end sentinel exactly when
the step returns to the start link, and two tours from different start links
on the same tree visit the same multiset of links; the step is a pure
function of the tree, which is never mutated. -/
theorem claim_C6_euler_tour (t : RTree) (s : TLink) (hs : validLink t s = true) :
    EulerTourOk t s := by
  cases t with
  | node f =>
    obtain ⟨i, hi, hgi, hrot⟩ := iterTour_eq_rotate (.node f) s hs
    have hmem : s ∈ tour (.node f) := (tour_mem _ s).mpr hs
    have hne : f ≠ .fnil := by
      intro hx; subst hx; simp [tour, tourF] at hmem
    have hlenT : (tour (.node f)).length = 2 * edgeCount (.node f) := length_tour _
    have h0 : 0 < (tour (.node f)).length := by omega
    have h0R : 0 < ((tour (.node f)).rotate i).length := by
      rw [List.length_rotate]; omega
    have hndR : ((tour (.node f)).rotate i).Nodup :=
      ((List.rotate_perm _ i).nodup_iff).mpr (tour_nodup _)
    have hRne : (tour (.node f)).rotate i ≠ [] := by
      intro hx
      rw [hx] at h0R
      simp at h0R
    have hg0 : ((tour (.node f)).rotate i).get ⟨0, h0R⟩ = s := by
      rw [List.get_rotate, ← hgi]
      congr 1
      apply Fin.ext
      simp [Nat.mod_eq_of_lt hi]
    have hlastR : ((tour (.node f)).rotate i).getLast? =
        some (((tour (.node f)).rotate i).get
          ⟨((tour (.node f)).rotate i).length - 1, by omega⟩) := by
      rw [List.getLast?_eq_getLast_of_ne_nil hRne, List.getLast_eq_get]
    have hstep_last : eulerStep (.node f)
        (((tour (.node f)).rotate i).get
          ⟨((tour (.node f)).rotate i).length - 1, by omega⟩) = s := by
      rw [tourRotate_cyclic f hne i (((tour (.node f)).rotate i).length - 1) (by omega)]
      have hmod : (((tour (.node f)).rotate i).length - 1 + 1) %
          ((tour (.node f)).rotate i).length = 0 := by
        rw [show ((tour (.node f)).rotate i).length - 1 + 1 =
            ((tour (.node f)).rotate i).length from by omega, Nat.mod_self]
      rw [show (⟨(((tour (.node f)).rotate i).length - 1 + 1) %
            ((tour (.node f)).rotate i).length, Nat.mod_lt _ (by omega)⟩ :
            Fin ((tour (.node f)).rotate i).length) = ⟨0, h0R⟩ from Fin.ext hmod]
      exact hg0
    refine ⟨?_, ?_, ?_, ?_, ?_, ?_⟩
    · rw [hrot, List.length_rotate, hlenT]
    · rw [hrot]; exact hndR
    · intro l
      rw [hrot, (List.rotate_perm _ i).mem_iff]
      exact tour_mem _ l
    · rw [hrot]
      have hx := List.get?_eq_get (l := (tour (.node f)).rotate i) (n := 0) h0R
      rw [List.get?_zero] at hx
      rw [hx, hg0]
    · intro x hx
      rw [hrot] at hx
      constructor
      · intro hnone
        have hstep : eulerStep (.node f) x = s := by
          by_contra hns
          simp only [iterStep] at hnone
          rw [if_neg hns] at hnone
          cases hnone
        obtain ⟨⟨j, hj⟩, hgj⟩ := List.mem_iff_get.mp hx
        have hcyc := tourRotate_cyclic f hne i j hj
        rw [hgj, hstep] at hcyc
        have heq : ((tour (.node f)).rotate i).get
            ⟨(j + 1) % ((tour (.node f)).rotate i).length, Nat.mod_lt _ (by omega)⟩ =
            ((tour (.node f)).rotate i).get ⟨0, h0R⟩ := by
          rw [← hcyc, hg0]
        have hfin := hndR.get_inj_iff.mp heq
        have hval := congrArg Fin.val hfin
        simp only at hval
        have hj1 : j + 1 = ((tour (.node f)).rotate i).length := by
          by_cases hjlt : j + 1 < ((tour (.node f)).rotate i).length
          · rw [Nat.mod_eq_of_lt hjlt] at hval
            omega
          · omega
        rw [hrot, hlastR, ← hgj]
        have hfin2 : (⟨((tour (.node f)).rotate i).length - 1, by omega⟩ :
            Fin ((tour (.node f)).rotate i).length) = ⟨j, hj⟩ := by
          simp only [Fin.mk.injEq]
          omega
        rw [hfin2]
      · intro hlastx
        rw [hrot, hlastR] at hlastx
        have hxval : x = ((tour (.node f)).rotate i).get
            ⟨((tour (.node f)).rotate i).length - 1, by omega⟩ :=
          (Option.some_inj.mp hlastx).symm
        rw [hxval]
        simp only [iterStep, hstep_last]
        simp
    · intro s' hs'
      obtain ⟨i', hi', hgi', hrot'⟩ := iterTour_eq_rotate (.node f) s' hs'
      rw [hrot, hrot']
      exact Multiset.coe_eq_coe.mpr
        ((List.rotate_perm _ i').trans (List.rotate_perm _ i).symm)

/- ====================================================================
   Helper lemmas for the parser claims
   ==================================================================== -/

theorem one_le_charVal {c : Char} (hc : isDigitC c = true) (h0 : c ≠ '0') :
    1 ≤ charVal c := by
  rw [isDigitC, Bool.and_eq_true, decide_eq_true_eq, decide_eq_true_eq] at hc
  by_contra h
  have h48 : c.toNat = 48 := by unfold charVal at h; omega
  apply h0
  apply Char.ext
  apply UInt32.ext
  show c.val.toNat = ('0' : Char).val.toNat
  rw [show ('0' : Char).val.toNat = 48 from by decide]
  exact h48

theorem take_takeWhile_len (p : Char → Bool) (s : List Char) :
    s.take (s.takeWhile p).length = s.takeWhile p := by
  induction s with
  | nil => rfl
  | cons c cs ih =>
    by_cases hc : p c <;> simp [List.takeWhile_cons, hc, ih]

theorem columnOf_takeWhile_digits (s : List Char) (hs : s ≠ []) :
    columnOf s (s.takeWhile isDigitC).length = 1 + (s.takeWhile isDigitC).length := by
  have hnn : ∀ c ∈ s.take (s.takeWhile isDigitC).length, c ≠ '\n' := by
    intro c hc
    rw [take_takeWhile_len] at hc
    exact isDigitC_ne_newline (List.mem_takeWhile_imp hc)
  rw [columnOf_no_newline s _ hs hnn, take_takeWhile_len]

theorem columnOf_sign_digits (c : Char) (s : List Char) (hc : c ≠ '\n') :
    columnOf (c :: s) (1 + (s.takeWhile isDigitC).length) =
      1 + (1 + (s.takeWhile isDigitC).length) := by
  have hnn : ∀ d ∈ (c :: s).take (1 + (s.takeWhile isDigitC).length), d ≠ '\n' := by
    intro d hd
    rw [show (1 + (s.takeWhile isDigitC).length) =
        (s.takeWhile isDigitC).length + 1 from by omega] at hd
    rw [List.take_succ_cons, List.mem_cons] at hd
    rcases hd with hd | hd
    · rw [hd]; exact hc
    · rw [take_takeWhile_len] at hd
      exact isDigitC_ne_newline (List.mem_takeWhile_imp hd)
  rw [columnOf_no_newline _ _ (by simp) hnn]
  congr 1
  rw [show (1 + (s.takeWhile isDigitC).length) =
      (s.takeWhile isDigitC).length + 1 from by omega]
  rw [List.take_succ_cons, List.length_cons, take_takeWhile_len]

theorem twinGo_error_iff (q : Char) :
    ∀ (l : List Char) (cnt : ℕ) (acc : List Char),
      (twinGo q l cnt acc = .error .malformedErr ↔ twinClosed q l = false) := by
  suffices H : ∀ (n : ℕ) (l : List Char), l.length ≤ n → ∀ (cnt : ℕ) (acc : List Char),
      (twinGo q l cnt acc = .error .malformedErr ↔ twinClosed q l = false) by
    intro l cnt acc
    exact H l.length l le_rfl cnt acc
  intro n
  induction n with
  | zero =>
    intro l h cnt acc
    have hl : l = [] := by
      cases l with
      | nil => rfl
      | cons a t => simp at h
    subst hl
    simp [twinGo, twinClosed]
  | succ n ih =>
    intro l h cnt acc
    match l with
    | [] => simp [twinGo, twinClosed]
    | [c] =>
      by_cases hc : c = q <;> simp [twinGo, twinClosed, hc]
    | c :: c2 :: cs =>
      by_cases hc : c = q
      · by_cases hc2 : c2 = q
        · have hrec := ih cs (by simp at h ⊢; omega) (cnt + 2) (acc ++ [q])
          simpa [twinGo, twinClosed, hc, hc2] using hrec
        · simp [twinGo, twinClosed, hc, hc2]
      · have hrec := ih (c2 :: cs) (by simp at h ⊢; omega) (cnt + 1) (acc ++ [c])
        simpa [twinGo, twinClosed, hc] using hrec

/-- Length of a dangling exponent sign directly after the marker. -/
def expSignLen : List Char → ℕ
  | [] => 0
  | c :: _ => if c = '+' || c = '-' then 1 else 0

/-- Whether valid exponent digits follow the marker, after an optional sign. -/
def expDigitsOk : List Char → Bool
  | [] => false
  | c :: rest =>
    if c = '+' || c = '-' then
      (match rest with
       | c2 :: _ => isDigitC c2
       | [] => false)
    else isDigitC c

/- ====================================================================
   Claim theorems: literal parsers
   ==================================================================== -/

/-- C1 (counterexample): the claim states that for `"123.456e-x2"` the
exponent marker and its dangling sign are *not* consumed, i.e. only the 7
characters of `"123.456"` are; but no run of `parse_float` on that input
consumes 7 characters — the parser consumes 9 (a resulting column of 10
already implies this). -/
theorem claim_C1_counterexample :
    ¬ ∃ v : FVal, parse_float "123.456e-x2".data = .ok (v, 7) := by
  rintro ⟨v, h⟩
  rw [show parse_float "123.456e-x2".data = .ok (((123456 : Int), (1000 : ℕ)), 9)
      from by decide] at h
  simp at h

/-- C1 (amended): for every float literal in which an exponent marker is
present but not followed by valid exponent digits, `parse_float` is not an
error: it returns the mantissa already parsed; the exponent marker and its
dangling sign are consumed but ignored (they do not affect the value), and
for the input `"123.456e-x2"` the value is 123.456, nine characters are
consumed and the resulting column is 10. -/
theorem claim_C1_malformed_exponent (rest : List Char) (x : FVal) (cnt : ℕ)
    (h : expDigitsOk rest = false) :
    expPhase rest x cnt = .ok (x, cnt + expSignLen rest) ∧
    parse_float "123.456e-x2".data = .ok (((123456 : Int), (1000 : ℕ)), 9) ∧
    ratOfF ((123456 : Int), (1000 : ℕ)) = 123456 / 1000 ∧
    columnOf "123.456e-x2".data 9 = 10 := by
  refine ⟨?_, by decide, by norm_num [ratOfF], by decide⟩
  cases rest with
  | nil => simp [expPhase, expSignLen]
  | cons c rest' =>
    by_cases hp : c = '+'
    · subst hp
      cases rest' with
      | nil => simp [expPhase, expSignLen]
      | cons c2 cs2 =>
        have hd : isDigitC c2 = false := by simpa [expDigitsOk] using h
        simp [expPhase, expSignLen, hd]
    · by_cases hm : c = '-'
      · subst hm
        cases rest' with
        | nil => simp [expPhase, expSignLen]
        | cons c2 cs2 =>
          have hd : isDigitC c2 = false := by simpa [expDigitsOk] using h
          simp [expPhase, expSignLen, hd]
      · have hd : isDigitC c = false := by simpa [expDigitsOk, hp, hm] using h
        simp [expPhase, expSignLen, hp, hm, hd]

theorem claim_C1_malformed_exponent_witness :
    expDigitsOk "-x2".data = false ∧
    (expPhase "-x2".data ((123456 : Int), (1000 : ℕ)) 8 =
        .ok (((123456 : Int), (1000 : ℕ)), 8 + expSignLen "-x2".data) ∧
      parse_float "123.456e-x2".data = .ok (((123456 : Int), (1000 : ℕ)), 9) ∧
      ratOfF ((123456 : Int), (1000 : ℕ)) = 123456 / 1000 ∧
      columnOf "123.456e-x2".data 9 = 10) :=
  ⟨by decide,
   claim_C1_malformed_exponent "-x2".data ((123456 : Int), (1000 : ℕ)) 8 (by decide)⟩

/-- C7 (counterexample): for the empty input string the unsigned integer
parser consumes nothing and the resulting scanner column is 0, not
1 + 0 as the claim's formula demands for every input. -/
theorem claim_C7_counterexample :
    parse_unsigned_integer ([] : List Char) = .ok (0, 0) ∧
    columnOf ([] : List Char) 0 = 0 ∧ (0 : ℕ) ≠ 1 + 0 :=
  ⟨by decide, by decide, by decide⟩

/-- C7 (amended): the unsigned and signed integer parsers consume exactly the
longest valid numeric prefix (an optional sign, signed only, then the longest
digit run), the value is the numeric value of that prefix (an empty digit
sequence yields 0), and for every nonempty input the resulting column is
1 + the number of characters consumed, while the empty input yields column 0;
e.g. unsigned parsing of `"123 45"` yields 123 with column 4 and signed
parsing of `"+0"` yields 0 with column 3.  (Stated for inputs whose numeric
prefix is within the representable range; out-of-range literals raise the
errors of C8.) -/
theorem claim_C7_longest_numeric_prefix :
    (∀ s : List Char, natVal (s.takeWhile isDigitC) 0 ≤ 4294967295 →
      parse_unsigned_integer s =
        .ok (natVal (s.takeWhile isDigitC) 0, (s.takeWhile isDigitC).length) ∧
      columnOf s (s.takeWhile isDigitC).length =
        (if s = [] then 0 else 1 + (s.takeWhile isDigitC).length)) ∧
    (∀ s : List Char, (∀ c rest, s = c :: rest → (c ≠ '+' ∧ c ≠ '-')) →
      natVal (s.takeWhile isDigitC) 0 ≤ 2147483647 →
      parse_signed_integer s =
        .ok ((natVal (s.takeWhile isDigitC) 0 : Int), (s.takeWhile isDigitC).length) ∧
      columnOf s (s.takeWhile isDigitC).length =
        (if s = [] then 0 else 1 + (s.takeWhile isDigitC).length)) ∧
    (∀ s : List Char, natVal (s.takeWhile isDigitC) 0 ≤ 2147483647 →
      parse_signed_integer ('+' :: s) =
        .ok ((natVal (s.takeWhile isDigitC) 0 : Int), 1 + (s.takeWhile isDigitC).length) ∧
      columnOf ('+' :: s) (1 + (s.takeWhile isDigitC).length) =
        1 + (1 + (s.takeWhile isDigitC).length)) ∧
    (∀ s : List Char, natVal (s.takeWhile isDigitC) 0 ≤ 2147483648 →
      parse_signed_integer ('-' :: s) =
        .ok (-(natVal (s.takeWhile isDigitC) 0 : Int), 1 + (s.takeWhile isDigitC).length) ∧
      columnOf ('-' :: s) (1 + (s.takeWhile isDigitC).length) =
        1 + (1 + (s.takeWhile isDigitC).length)) ∧
    (parse_unsigned_integer "123 45".data = .ok (123, 3) ∧
     columnOf "123 45".data 3 = 4 ∧
     parse_signed_integer "+0".data = .ok (0, 2) ∧
     columnOf "+0".data 2 = 3) := by
  refine ⟨?_, ?_, ?_, ?_, by decide, by decide, by decide, by decide⟩
  · intro s hv
    constructor
    · rw [parse_unsigned_integer, parseDigits_eq _ _ s 0 0 (by omega), if_pos hv]
      simp
    · by_cases hs : s = []
      · subst hs; simp [columnOf]
      · rw [if_neg hs]; exact columnOf_takeWhile_digits s hs
  · intro s hsign hv
    constructor
    · cases s with
      | nil => rfl
      | cons c rest =>
        obtain ⟨hcp, hcm⟩ := hsign c rest rfl
        rw [parse_signed_integer]
        rw [if_neg hcp, if_neg hcm]
        rw [parseDigits_eq _ _ _ 0 0 (by omega), if_pos hv]
        simp [Except.map]
    · by_cases hs : s = []
      · subst hs; simp [columnOf]
      · rw [if_neg hs]; exact columnOf_takeWhile_digits s hs
  · intro s hv
    constructor
    · rw [parse_signed_integer, if_pos rfl]
      rw [parseDigits_eq _ _ _ 0 1 (by omega), if_pos hv]
      rfl
    · exact columnOf_sign_digits '+' s (by decide)
  · intro s hv
    constructor
    · rw [parse_signed_integer, if_neg (by decide), if_pos rfl]
      rw [parseDigits_eq _ _ _ 0 1 (by omega), if_pos hv]
      rfl
    · exact columnOf_sign_digits '-' s (by decide)

theorem claim_C7_witness :
    (natVal ("123 45".data.takeWhile isDigitC) 0 ≤ 4294967295 ∧
     (parse_unsigned_integer "123 45".data =
        .ok (natVal ("123 45".data.takeWhile isDigitC) 0,
             ("123 45".data.takeWhile isDigitC).length) ∧
      columnOf "123 45".data ("123 45".data.takeWhile isDigitC).length =
        (if "123 45".data = [] then 0
         else 1 + ("123 45".data.takeWhile isDigitC).length))) ∧
    (natVal ("0".data.takeWhile isDigitC) 0 ≤ 2147483648 ∧
     (parse_signed_integer ('-' :: "0".data) =
        .ok (-(natVal ("0".data.takeWhile isDigitC) 0 : Int),
             1 + ("0".data.takeWhile isDigitC).length) ∧
      columnOf ('-' :: "0".data) (1 + ("0".data.takeWhile isDigitC).length) =
        1 + (1 + ("0".data.takeWhile isDigitC).length))) :=
  ⟨⟨by decide, claim_C7_longest_numeric_prefix.1 "123 45".data (by decide)⟩,
   ⟨by decide, claim_C7_longest_numeric_prefix.2.2.2.1 "0".data (by decide)⟩⟩

/-- C8 (counterexample): an integer literal of 31 decimal digits does not
always raise an overflow error: the literal consisting of 31 zeros parses
without error to the value 0. -/
theorem claim_C8_counterexample :
    parse_unsigned_integer (List.replicate 31 '0') = .ok (0, 31) := by decide

/-- C8 (amended): numeric literals whose magnitude exceeds the representable
range raise distinct error kinds instead of saturating or wrapping: parsing
an integer literal of 31 decimal digits whose leading digit is nonzero
raises an overflow error, parsing its negation as a signed integer raises an
underflow error, and a float exponent of overflowing positive (resp.
negative) magnitude raises an overflow (resp. underflow) error; the two
error kinds are distinct. -/
theorem claim_C8_overflow_underflow (c : Char) (cs : List Char)
    (hd : ∀ d ∈ c :: cs, isDigitC d = true) (h0 : c ≠ '0')
    (hlen : (c :: cs).length = 31) :
    parse_unsigned_integer (c :: cs) = .error .overflowErr ∧
    parse_signed_integer ('-' :: c :: cs) = .error .underflowErr ∧
    parse_float "1.0e123456789101121314151617181920".data = .error .overflowErr ∧
    parse_float "1.0e-123456789101121314151617181920".data = .error .underflowErr ∧
    PErr.overflowErr ≠ PErr.underflowErr := by
  have hdig : (c :: cs).takeWhile isDigitC = c :: cs :=
    List.takeWhile_eq_self_iff.mpr hd
  have hbig : (10 : ℕ) ^ 30 = 1000000000000000000000000000000 := by norm_num
  have hlow : 10 ^ 30 ≤ natVal (c :: cs) 0 := by
    have h1 : 1 ≤ charVal c := one_le_charVal (hd c (by simp)) h0
    have h2 := natVal_pow cs (charVal c)
    have hlcs : cs.length = 30 := by
      rw [List.length_cons] at hlen; omega
    calc (10 : ℕ) ^ 30 = 1 * 10 ^ 30 := by ring
    _ ≤ charVal c * 10 ^ cs.length := by
        rw [hlcs]; exact Nat.mul_le_mul_right _ h1
    _ ≤ natVal cs (charVal c) := h2
    _ = natVal (c :: cs) 0 := by simp [natVal]
  refine ⟨?_, ?_, by decide, by decide, by decide⟩
  · rw [parse_unsigned_integer, parseDigits_eq _ _ _ 0 0 (by omega), hdig,
      if_neg (by omega)]
  · rw [parse_signed_integer, if_neg (by decide), if_pos rfl,
      parseDigits_eq _ _ _ 0 1 (by omega), hdig, if_neg (by omega)]
    rfl

theorem claim_C8_witness :
    (∀ d ∈ '1' :: List.replicate 30 '0', isDigitC d = true) ∧ ('1' : Char) ≠ '0' ∧
    ('1' :: List.replicate 30 '0').length = 31 ∧
    (parse_unsigned_integer ('1' :: List.replicate 30 '0') = .error .overflowErr ∧
     parse_signed_integer ('-' :: '1' :: List.replicate 30 '0') = .error .underflowErr ∧
     parse_float "1.0e123456789101121314151617181920".data = .error .overflowErr ∧
     parse_float "1.0e-123456789101121314151617181920".data = .error .underflowErr ∧
     PErr.overflowErr ≠ PErr.underflowErr) :=
  ⟨by decide, by decide, by decide,
   claim_C8_overflow_underflow '1' (List.replicate 30 '0') (by decide) (by decide)
     (by decide)⟩

/-- C9: in doubled-delimiter quoted-string mode, a doubled delimiter inside
the quoted region yields one literal delimiter character: `"''''"` with
delimiter `'` parses to the single character `'` with resulting column 5,
`"'bl''a'"` parses to `bl'a` with column 8, and end-of-input before the
closing delimiter raises a syntax error. -/
theorem claim_C9_twin_quotes :
    parse_quoted_string false ['\'', '\'', '\'', '\''] = .ok (['\''], 4) ∧
    columnOf ['\'', '\'', '\'', '\''] 4 = 5 ∧
    parse_quoted_string false ['\'', 'b', 'l', '\'', '\'', 'a', '\''] =
      .ok (['b', 'l', '\'', 'a'], 7) ∧
    columnOf ['\'', 'b', 'l', '\'', '\'', 'a', '\''] 7 = 8 ∧
    (∀ (q : Char) (rest : List Char), twinClosed q rest = false →
      parse_quoted_string false (q :: rest) = .error .malformedErr) ∧
    parse_quoted_string true ['\'', 'x', 'y', '\'', '\'', 'z'] = .error .malformedErr := by
  refine ⟨by decide, by decide, by decide, by decide, ?_, by decide⟩
  intro q rest h
  have herr := (twinGo_error_iff q rest 1 []).mpr h
  rw [parse_quoted_string, herr]

theorem claim_C9_witness :
    twinClosed '\'' ['x', 'y', '\'', '\'', 'z'] = false ∧
    parse_quoted_string false ('\'' :: ['x', 'y', '\'', '\'', 'z']) =
      .error .malformedErr :=
  ⟨by decide,
   claim_C9_twin_quotes.2.2.2.2.1 '\'' ['x', 'y', '\'', '\'', 'z'] (by decide)⟩

/- ====================================================================
   Claim theorems: broker element and edge-numbering mixin
   ==================================================================== -/

theorem data_mk (l : List Char) : (String.mk l).data = l := rfl

/-- C2: for every broker element converted to an edge by the edge-numbering
mixin, zero tags raises the missing-annotation error, more than one tag
raises the ambiguous-annotation error, and exactly one tag (holding a
numeric value) succeeds with the edge's `edge_num` set to that value;
printing the resulting edge with edge-number printing enabled emits exactly
one tag, and parsing it again reproduces the same edge-number assignment. -/
theorem claim_C2_edge_num_round_trip (el : NewickBrokerElement) (edge : PlacementEdge) :
    (el.tags = [] →
      element_to_edge el edge =
        ({ data := { edge.data with edge_num := -1 } }, .error (msgMissingTag el.name))) ∧
    (1 < el.tags.length →
      element_to_edge el edge =
        ({ data := { edge.data with edge_num := -1 } }, .error (msgAmbiguousTag el.name))) ∧
    (∀ (tg : String) (n : Int), el.tags = [tg] → stoi tg.data = some n →
      element_to_edge el edge = ({ data := { edge.data with edge_num := n } }, .ok ()) ∧
      ∀ fresh : NewickBrokerElement, fresh.tags = [] →
        (edge_to_element true false { data := { edge.data with edge_num := n } } fresh).tags
          = [String.mk (to_string_int n)] ∧
        ∀ e2 : PlacementEdge,
          element_to_edge
            (edge_to_element true false { data := { edge.data with edge_num := n } } fresh)
            e2 = ({ data := { e2.data with edge_num := n } }, .ok ())) := by
  refine ⟨?_, ?_, ?_⟩
  · intro h
    simp [element_to_edge, h]
  · intro h
    have h0 : ¬ el.tags.length = 0 := by omega
    simp [element_to_edge, h0, h]
  · intro tg n htags hstoi
    have hlen : el.tags.length = 1 := by rw [htags]; rfl
    constructor
    · simp [element_to_edge, htags, hstoi]
    · intro fresh hfresh
      have hprint :
          (edge_to_element true false { data := { edge.data with edge_num := n } }
            fresh).tags = [String.mk (to_string_int n)] := by
        simp [edge_to_element, hfresh]
      refine ⟨hprint, ?_⟩
      intro e2
      simp [element_to_edge, hprint, data_mk, stoi_to_string_int n]

def elC2 : NewickBrokerElement :=
  { NewickBrokerElement.init with name := "n1", tags := ["42"] }

def edgeC2 : PlacementEdge := ⟨⟨7, 3⟩⟩

theorem claim_C2_witness :
    elC2.tags = ["42"] ∧ stoi ("42" : String).data = some (42 : Int) ∧
    element_to_edge elC2 edgeC2 =
      ({ data := { edgeC2.data with edge_num := 42 } }, .ok ()) :=
  ⟨rfl, by decide,
   ((claim_C2_edge_num_round_trip elC2 edgeC2).2.2 "42" 42 rfl (by decide)).1⟩

/-- C3: on every broker element whose rank field is still unset (the
finalization pass has not run), `rank`, `is_leaf` and `is_inner` raise a
logic error, while `is_root` never raises and returns exactly whether the
depth is 0; the constructor initializes the rank field to -1 (unset). -/
theorem claim_C3_rank_before_finalization (e : NewickBrokerElement) (h : e.rank_ < 0) :
    e.rank = .error "NewickBroker::assign_ranks() was not called before." ∧
    e.is_leaf = .error "NewickBroker::is_leaf() was not called before." ∧
    e.is_inner = .error "NewickBroker::is_leaf() was not called before." ∧
    NewickBrokerElement.init.rank_ = -1 ∧
    (∀ e' : NewickBrokerElement, (e'.is_root = true ↔ e'.depth = 0)) := by
  refine ⟨?_, ?_, ?_, rfl, ?_⟩
  · simp [NewickBrokerElement.rank, h]
  · simp [NewickBrokerElement.is_leaf, h]
  · simp [NewickBrokerElement.is_inner, h]
  · intro e'
    simp [NewickBrokerElement.is_root]

theorem claim_C3_witness :
    NewickBrokerElement.init.rank_ < 0 ∧
    (NewickBrokerElement.init.rank =
        .error "NewickBroker::assign_ranks() was not called before." ∧
     NewickBrokerElement.init.is_leaf =
        .error "NewickBroker::is_leaf() was not called before." ∧
     NewickBrokerElement.init.is_inner =
        .error "NewickBroker::is_leaf() was not called before." ∧
     NewickBrokerElement.init.rank_ = -1 ∧
     (∀ e' : NewickBrokerElement, (e'.is_root = true ↔ e'.depth = 0))) :=
  ⟨by decide, claim_C3_rank_before_finalization NewickBrokerElement.init (by decide)⟩

/-- C10: when the edge-numbering mixin's `element_to_edge` raises a
missing-annotation or ambiguous-annotation error, the target edge has
already been mutated: its `edge_num` field is -1 on the error path, whatever
its previous value was. -/
theorem claim_C10_error_path_mutates (el : NewickBrokerElement) (edge : PlacementEdge)
    (h : el.tags = [] ∨ 1 < el.tags.length) :
    (element_to_edge el edge).1.data.edge_num = -1 ∧
    (element_to_edge el edge).2.isOk = false := by
  rcases h with h | h
  · simp [element_to_edge, h, Except.isOk, Except.toBool]
  · have h0 : ¬ el.tags.length = 0 := by omega
    simp [element_to_edge, h0, h, Except.isOk, Except.toBool]

def edgeC10 : PlacementEdge := ⟨⟨7, 0⟩⟩

theorem claim_C10_witness :
    (NewickBrokerElement.init.tags = [] ∨ 1 < NewickBrokerElement.init.tags.length) ∧
    ((element_to_edge NewickBrokerElement.init edgeC10).1.data.edge_num = -1 ∧
     (element_to_edge NewickBrokerElement.init edgeC10).2.isOk = false) :=
  ⟨Or.inl rfl,
   claim_C10_error_path_mutates NewickBrokerElement.init edgeC10 (Or.inl rfl)⟩

/- ====================================================================
   Claim C6 witness
   ==================================================================== -/

def eulerTree : RTree :=
  .node (.fcons (.node (.fcons (.node .fnil) (.fcons (.node .fnil) .fnil)))
    (.fcons (.node .fnil) .fnil))

theorem claim_C6_witness :
    validLink eulerTree (([0] : List ℕ), false) = true ∧
    EulerTourOk eulerTree (([0] : List ℕ), false) :=
  ⟨by decide, claim_C6_euler_tour eulerTree (([0] : List ℕ), false) (by decide)⟩

/- ====================================================================
   Claim theorems: mass-tree K-means validation (C4)
   ==================================================================== -/

theorem checkMassData_cases (data : List MassTree) :
    (checkMassData data = .ok () ∧ ∀ tr ∈ data, tree_data_is tr = true) ∨
    (checkMassData data = .error "Trees for Kmeans do not have MassTree data types." ∧
     ∃ tr ∈ data, tree_data_is tr = false) := by
  induction data with
  | nil => exact Or.inl ⟨rfl, by simp⟩
  | cons t rest ih =>
    by_cases ht : tree_data_is t = true
    · rcases ih with ⟨hok, hall⟩ | ⟨herr, hex⟩
      · left
        refine ⟨by rw [checkMassData, if_pos ht]; exact hok, ?_⟩
        intro tr htr
        rcases List.mem_cons.mp htr with h | h
        · rw [h]; exact ht
        · exact hall tr h
      · right
        refine ⟨by rw [checkMassData, if_pos ht]; exact herr, ?_⟩
        obtain ⟨tr, htr, hf⟩ := hex
        exact ⟨tr, List.mem_cons_of_mem _ htr, hf⟩
    · right
      refine ⟨by rw [checkMassData, if_neg ht], ?_⟩
      exact ⟨t, List.mem_cons_self _ _, by simpa using ht⟩

theorem checkTopologies_cases (data : List MassTree) :
    (checkTopologies data = .ok () ∧ ∀ a ∈ data, ∀ b ∈ data, a.topo = b.topo) ∨
    (checkTopologies data = .error "Trees for Kmeans do not have identical topologies." ∧
     ∃ a ∈ data, ∃ b ∈ data, a.topo ≠ b.topo) := by
  induction data with
  | nil => exact Or.inl ⟨rfl, by simp⟩
  | cons a rest ih =>
    cases rest with
    | nil =>
      left
      refine ⟨rfl, ?_⟩
      intro x hx y hy
      rw [List.mem_singleton] at hx hy
      rw [hx, hy]
    | cons b rest' =>
      by_cases hab : identical_topology a b = true
      · have hab' : a.topo = b.topo := by
          simpa [identical_topology, beq_iff_eq] using hab
        rcases ih with ⟨hok, hall⟩ | ⟨herr, hex⟩
        · left
          refine ⟨by rw [checkTopologies, if_pos hab]; exact hok, ?_⟩
          have key : ∀ x ∈ a :: b :: rest', x.topo = b.topo := by
            intro x hx
            rcases List.mem_cons.mp hx with h | h
            · rw [h]; exact hab'
            · exact hall x h b (List.mem_cons_self _ _)
          intro x hx y hy
          rw [key x hx, key y hy]
        · right
          refine ⟨by rw [checkTopologies, if_pos hab]; exact herr, ?_⟩
          obtain ⟨x, hx, y, hy, hne⟩ := hex
          exact ⟨x, List.mem_cons_of_mem _ hx, y, List.mem_cons_of_mem _ hy, hne⟩
      · right
        refine ⟨by rw [checkTopologies, if_neg hab], ?_⟩
        refine ⟨a, List.mem_cons_self _ _, b,
          List.mem_cons_of_mem _ (List.mem_cons_self _ _), ?_⟩
        intro he
        exact hab (by simp [identical_topology, beq_iff_eq, he])

/-- C4: for every input vector of trees given to the mass-tree K-means,
`data_validation` raises an invalid-input error — before any distance
computation, since it performs none — exactly when some tree lacks the
mass-bearing payload types or some pair of input trees does not have
identical topology; the adjacent-pair loop of the source suffices because
topology identity is transitive.  On success the result is `true`. -/
theorem claim_C4_data_validation (data : List MassTree) :
    ((data_validation data).isOk = true ↔
      ((∀ tr ∈ data, tree_data_is tr = true) ∧
       ∀ a ∈ data, ∀ b ∈ data, identical_topology a b = true)) ∧
    (data_validation data = .ok true ∨
     data_validation data = .error "Trees for Kmeans do not have MassTree data types." ∨
     data_validation data = .error "Trees for Kmeans do not have identical topologies.") := by
  rcases checkMassData_cases data with ⟨hok1, hall1⟩ | ⟨herr1, hex1⟩
  · rcases checkTopologies_cases data with ⟨hok2, hall2⟩ | ⟨herr2, hex2⟩
    · have hdv : data_validation data = .ok true := by
        simp [data_validation, hok1, hok2]
      refine ⟨?_, Or.inl hdv⟩
      rw [hdv]
      simp only [Except.isOk, Except.toBool, true_iff]
      refine ⟨hall1, ?_⟩
      intro a ha b hb
      simp [identical_topology, beq_iff_eq]
      exact hall2 a ha b hb
    · have hdv : data_validation data =
          .error "Trees for Kmeans do not have identical topologies." := by
        simp [data_validation, hok1, herr2]
      refine ⟨?_, Or.inr (Or.inr hdv)⟩
      rw [hdv]
      simp only [Except.isOk, Except.toBool, Bool.false_eq_true, false_iff]
      rintro ⟨_, hid⟩
      obtain ⟨x, hx, y, hy, hne⟩ := hex2
      exact hne (by simpa [identical_topology, beq_iff_eq] using hid x hx y hy)
  · have hdv : data_validation data =
        .error "Trees for Kmeans do not have MassTree data types." := by
      simp [data_validation, herr1]
    refine ⟨?_, Or.inr (Or.inl hdv)⟩
    rw [hdv]
    simp only [Except.isOk, Except.toBool, Bool.false_eq_true, false_iff]
    rintro ⟨hall, _⟩
    obtain ⟨tr, htr, hf⟩ := hex1
    rw [hall tr htr] at hf
    cases hf

/- ====================================================================
   Claim theorems: mass-tree K-means centroid update (C5)
   ==================================================================== -/

theorem insertMass_total (l : List (ℚ × ℚ)) (pm : ℚ × ℚ) :
    ((insertMass l pm).map Prod.snd).sum = (l.map Prod.snd).sum + pm.2 := by
  induction l with
  | nil => simp [insertMass]
  | cons hd tl ih =>
    obtain ⟨p, m⟩ := hd
    by_cases hp : p = pm.1
    · simp [insertMass, hp]
      ring
    · simp [insertMass, hp, ih]
      ring

theorem mergeMasses_total (b : List (ℚ × ℚ)) :
    ∀ a : List (ℚ × ℚ),
      ((b.foldl insertMass a).map Prod.snd).sum =
        (a.map Prod.snd).sum + (b.map Prod.snd).sum := by
  induction b with
  | nil => intro a; simp
  | cons hd tl ih =>
    intro a
    rw [List.foldl_cons, ih, insertMass_total]
    simp
    ring

theorem merge_sum (dst src : MassTree) :
    mass_tree_sum_of_masses (mass_tree_merge_trees_inplace dst src) =
      mass_tree_sum_of_masses dst + mass_tree_sum_of_masses src := by
  simp [mass_tree_merge_trees_inplace, mass_tree_sum_of_masses, mergeMasses_total]

theorem sum_map_div (l : List (ℚ × ℚ)) (s : ℚ) :
    ((l.map (fun pm => (pm.1, pm.2 / s))).map Prod.snd).sum =
      (l.map Prod.snd).sum / s := by
  induction l with
  | nil => simp
  | cons hd tl ih =>
    simp only [List.map_cons, List.sum_cons]
    rw [ih]
    ring

theorem normalize_sum (t : MassTree) (h : mass_tree_sum_of_masses t ≠ 0) :
    mass_tree_sum_of_masses (mass_tree_normalize_masses t) = 1 := by
  rw [mass_tree_normalize_masses]
  simp only [if_neg h]
  show ((t.masses.map (fun pm => (pm.1, pm.2 / mass_tree_sum_of_masses t))).map
      Prod.snd).sum = 1
  rw [sum_map_div]
  exact div_self h

/-- A default mass tree, used only as the default of list indexing. -/
def mtDefault : MassTree := ⟨.node .fnil, true, []⟩

theorem getD_set_self (l : List MassTree) :
    ∀ (a : ℕ) (v d : MassTree), a < l.length → (l.set a v).getD a d = v := by
  induction l with
  | nil => intro a v d h; simp at h
  | cons x xs ih =>
    intro a v d h
    cases a with
    | zero => rfl
    | succ a =>
      rw [List.set_cons_succ, List.getD_cons_succ]
      exact ih a v d (by simpa using h)

theorem getD_set_ne (l : List MassTree) :
    ∀ (a i : ℕ) (v d : MassTree), a ≠ i → (l.set a v).getD i d = l.getD i d := by
  induction l with
  | nil => intro a i v d h; simp [List.set]
  | cons x xs ih =>
    intro a i v d h
    cases a with
    | zero =>
      cases i with
      | zero => exact absurd rfl h
      | succ i => rw [List.set_cons_zero, List.getD_cons_succ, List.getD_cons_succ]
    | succ a =>
      cases i with
      | zero => rw [List.set_cons_succ, List.getD_cons_zero, List.getD_cons_zero]
      | succ i =>
        rw [List.set_cons_succ, List.getD_cons_succ, List.getD_cons_succ]
        exact ih a i v d (by omega)

theorem getD_map_mt (f : MassTree → MassTree) (l : List MassTree) :
    ∀ (i : ℕ) (d : MassTree), (l.map f).getD i (f d) = f (l.getD i d) := by
  induction l with
  | nil => intro i d; simp
  | cons x xs ih =>
    intro i d
    cases i with
    | zero => rfl
    | succ i =>
      rw [List.map_cons, List.getD_cons_succ, List.getD_cons_succ]
      exact ih i d

theorem accum_len (ps : List (MassTree × ℕ)) :
    ∀ cs : List MassTree, (accumulateCentroids ps cs).length = cs.length := by
  induction ps with
  | nil => intro cs; rfl
  | cons p rest ih =>
    intro cs
    obtain ⟨d, a⟩ := p
    rw [accumulateCentroids, ih, List.length_set]

theorem accum_sum (ps : List (MassTree × ℕ)) :
    ∀ cs : List MassTree,
      (∀ p ∈ ps, p.2 < cs.length) →
      (∀ p ∈ ps, mass_tree_sum_of_masses p.1 = 1) →
      ∀ i : ℕ, i < cs.length →
        mass_tree_sum_of_masses ((accumulateCentroids ps cs).getD i mtDefault) =
          mass_tree_sum_of_masses (cs.getD i mtDefault) +
            ((ps.map Prod.snd).count i : ℚ) := by
  induction ps with
  | nil =>
    intro cs _ _ i _
    simp [accumulateCentroids]
  | cons p rest ih =>
    intro cs hbound hunit i hi
    obtain ⟨d, a⟩ := p
    have ha : a < cs.length := hbound (d, a) (List.mem_cons_self _ _)
    have hbound' : ∀ q ∈ rest,
        q.2 < (cs.set a (mass_tree_merge_trees_inplace (cs.getD a d) d)).length := by
      intro q hq
      rw [List.length_set]
      exact hbound q (List.mem_cons_of_mem _ hq)
    have hunit' : ∀ q ∈ rest, mass_tree_sum_of_masses q.1 = 1 :=
      fun q hq => hunit q (List.mem_cons_of_mem _ hq)
    rw [accumulateCentroids]
    rw [ih _ hbound' hunit' i (by rw [List.length_set]; exact hi)]
    by_cases hai : a = i
    · subst hai
      rw [getD_set_self _ _ _ _ ha]
      rw [merge_sum]
      have hgd : cs.getD a d = cs.getD a mtDefault := by
        rw [List.getD_eq_getElem?_getD, List.getD_eq_getElem?_getD]
        rw [List.getElem?_eq_getElem ha]
        rfl
      rw [hgd, hunit (d, a) (List.mem_cons_self _ _)]
      rw [List.map_cons, List.count_cons]
      simp
      ring
    · rw [getD_set_ne _ _ _ _ _ hai]
      rw [List.map_cons, List.count_cons]
      have : (a == i) = false := by simp [hai]
      simp [this]

/-- C5: after `update_centroids` clears all centroid masses and additively
merges each unit-mass input tree into its assigned centroid, the number of
trees assigned to centroid i equals that centroid's total accumulated mass
prior to normalization (exactly, in the exact-arithmetic embedding, hence
within any floating-point tolerance), and each centroid with at least one
assigned tree is then normalized to the target total mass 1. -/
theorem claim_C5_centroid_invariant
    (data : List MassTree) (assignments : List ℕ) (centroids : List MassTree)
    (hlen : data.length = assignments.length)
    (hbound : ∀ a ∈ assignments, a < centroids.length)
    (hunit : ∀ d ∈ data, mass_tree_sum_of_masses d = 1) :
    ∀ i : ℕ, i < centroids.length →
      (mass_tree_sum_of_masses
        ((accumulateCentroids (data.zip assignments)
          (centroids.map mass_tree_clear_masses)).getD i mtDefault) =
        (assignments.count i : ℚ)) ∧
      (0 < assignments.count i →
        mass_tree_sum_of_masses
          ((update_centroids data assignments centroids).getD i mtDefault) = 1) := by
  intro i hi
  have hmap : (data.zip assignments).map Prod.snd = assignments :=
    List.map_snd_zip data assignments (by omega)
  have hcs0len : (centroids.map mass_tree_clear_masses).length = centroids.length := by
    simp
  have hbound' : ∀ p ∈ data.zip assignments,
      p.2 < (centroids.map mass_tree_clear_masses).length := by
    intro p hp
    rw [hcs0len]
    obtain ⟨x, y⟩ := p
    exact hbound y (List.of_mem_zip hp).2
  have hunit' : ∀ p ∈ data.zip assignments, mass_tree_sum_of_masses p.1 = 1 := by
    intro p hp
    obtain ⟨x, y⟩ := p
    exact hunit x (List.of_mem_zip hp).1
  have hclear : mass_tree_clear_masses mtDefault = mtDefault := rfl
  have hclr0 :
      mass_tree_sum_of_masses
        ((centroids.map mass_tree_clear_masses).getD i mtDefault) = 0 := by
    rw [show (mtDefault : MassTree) = mass_tree_clear_masses mtDefault from rfl]
    rw [getD_map_mt]
    simp [mass_tree_clear_masses, mass_tree_sum_of_masses]
  have hacc := accum_sum (data.zip assignments) (centroids.map mass_tree_clear_masses)
    hbound' hunit' i (by rw [hcs0len]; exact hi)
  rw [hclr0, hmap] at hacc
  constructor
  · rw [hacc]; ring
  · intro hcount
    have hupd : update_centroids data assignments centroids =
        (accumulateCentroids (data.zip assignments)
          (centroids.map mass_tree_clear_masses)).map mass_tree_normalize_masses := rfl
    rw [hupd]
    have hnd : mass_tree_normalize_masses mtDefault = mtDefault := by
      simp [mass_tree_normalize_masses, mass_tree_sum_of_masses, mtDefault]
    rw [show (mtDefault : MassTree) = mass_tree_normalize_masses mtDefault from hnd.symm]
    rw [getD_map_mt]
    apply normalize_sum
    rw [hacc, zero_add]
    exact Nat.cast_ne_zero.mpr (by omega)

def mtDatum : MassTree := ⟨.node .fnil, true, [(0, 1)]⟩

def mtCentroid : MassTree := ⟨.node .fnil, true, []⟩

theorem claim_C5_witness :
    ([mtDatum].length = ([0] : List ℕ).length) ∧
    (∀ a ∈ ([0] : List ℕ), a < [mtCentroid].length) ∧
    (∀ d ∈ [mtDatum], mass_tree_sum_of_masses d = 1) ∧
    (0 : ℕ) < [mtCentroid].length ∧
    ((mass_tree_sum_of_masses
        ((accumulateCentroids ([mtDatum].zip ([0] : List ℕ))
          ([mtCentroid].map mass_tree_clear_masses)).getD 0 mtDefault) =
        ((([0] : List ℕ).count 0 : ℕ) : ℚ)) ∧
      (0 < ([0] : List ℕ).count 0 →
        mass_tree_sum_of_masses
          ((update_centroids [mtDatum] ([0] : List ℕ) [mtCentroid]).getD 0 mtDefault) =
          1)) :=
  ⟨rfl, by simp, by simp [mtDatum, mass_tree_sum_of_masses], by simp,
   claim_C5_centroid_invariant [mtDatum] ([0] : List ℕ) [mtCentroid] rfl (by simp)
     (by simp [mtDatum, mass_tree_sum_of_masses]) 0 (by simp)⟩
